import Mathlib

/-!
Verification of the time-series annotation and export engine of the
THESIS-admin-frontend repository.

The definitions below are shallow embeddings of the JavaScript functions in
src/pages/SessionChartPage.jsx, src/pages/VolunteerDetailPage.jsx and the
corresponding unnamed source parts.  JavaScript numbers used as array indices
are modelled as Int (the source can produce -1 as an index value), elapsed
times as Int second counts, and JavaScript strings as String or as List Char where a
character level view is needed.  Each claim theorem carries a doc comment
naming the claim it settles.
-/

set_option maxRecDepth 4000

/-- A segment or view window object, literally a pair of fields
startIndex and endIndex as produced by handleApplySplit and stored by the
domain handlers.  Indices are Int because the source arithmetic can produce
negative values such as endIndex = -1. -/
structure Seg where
  startIndex : Int
  endIndex : Int
deriving DecidableEq

/-- Count based segmentation, from handleApplySplit for a count split.
Source: segmentSize = Math.floor(totalPoints / value); for i in [0, value):
startIndex = i * segmentSize, endIndex = (i = value-1) ? totalPoints-1 :
(i+1) * segmentSize - 1, pushed only when startIndex < totalPoints. -/
def countSegments (totalPoints value : Nat) : List Seg :=
  let segmentSize := totalPoints / value
  (List.range value).filterMap fun i =>
    let startIndex : Int := ((i * segmentSize : Nat) : Int)
    let endIndex : Int :=
      if i = value - 1 then (totalPoints : Int) - 1
      else (((i + 1) * segmentSize : Nat) : Int) - 1
    if startIndex < (totalPoints : Int) then some ⟨startIndex, endIndex⟩ else none

/-- The closed form of the i-th count segment. -/
def countSegOf (totalPoints value i : Nat) : Seg :=
  ⟨((i * (totalPoints / value) : Nat) : Int),
    if i = value - 1 then (totalPoints : Int) - 1
    else (((i + 1) * (totalPoints / value) : Nat) : Int) - 1⟩

/-- JavaScript Array.prototype.findIndex: the index of the first element
satisfying p, or -1 when none does. -/
def jsFindIdx (p : α → Bool) (l : List α) : Int :=
  match l.findIdx? p with
  | some i => (i : Int)
  | none => -1

/-- Duration based segmentation loop, from handleApplySplit for a time split,
with explicit fuel for termination.  Source loop: while (currentStartTime <
totalDuration) { currentEndTime = currentStartTime + timeInSeconds;
startIndex = chartData.findIndex(d => d.elapsed_time >= currentStartTime);
if (startIndex === -1) break; endIndex = chartData.findIndex(d =>
d.elapsed_time > currentEndTime); endIndex = endIndex === -1 ? totalPoints - 1
: endIndex - 1; if (endIndex < startIndex) endIndex = startIndex;
segments.push({startIndex, endIndex}); currentStartTime += timeInSeconds; }
The list es holds the elapsed_time values of chartData, modelled as integer
second counts. -/
def timeLoopGo (es : List Int) (timeInSeconds totalDuration : Int) :
    Nat → Int → List Seg
  | 0, _ => []
  | fuel + 1, currentStartTime =>
    if currentStartTime < totalDuration then
      let currentEndTime := currentStartTime + timeInSeconds
      let startIndex : Int := jsFindIdx (fun e => decide (currentStartTime ≤ e)) es
      if startIndex = -1 then []
      else
        let e0 : Int := jsFindIdx (fun e => decide (currentEndTime < e)) es
        let endIndex : Int := if e0 = -1 then (es.length : Int) - 1 else e0 - 1
        let endIndex2 : Int := if endIndex < startIndex then startIndex else endIndex
        ⟨startIndex, endIndex2⟩ ::
          timeLoopGo es timeInSeconds totalDuration fuel (currentStartTime + timeInSeconds)
    else []

/-- totalDuration = chartData[totalPoints - 1].elapsed_time. -/
def totalDurationOf (es : List Int) : Int := (es.getLast?).getD 0

/-- Number of iterations the duration split loop performs: the least n with
n * d at least the total duration. -/
def iterCount (es : List Int) (d : Int) : Nat :=
  ((totalDurationOf es).toNat + d.toNat - 1) / d.toNat

/-- Duration based segmentation, the time split branch of handleApplySplit,
run with enough fuel for the whole loop. -/
def timeSegments (es : List Int) (d : Int) : List Seg :=
  timeLoopGo es d (totalDurationOf es) (iterCount es d + 1) 0

/-- The segment that the duration split produces for the window starting at
elapsed time t: indices from the first sample with elapsed time at least t
through the one before the first sample with elapsed time strictly greater
than t + d, clamped to the last index when no sample exceeds t + d, and
corrected to a degenerate single sample segment when that range is empty.
Note the upper boundary is inclusive: a sample with elapsed time exactly
t + d falls in this segment and in the next one. -/
def segForWindow (es : List Int) (d t : Int) : Seg :=
  let startIndex : Int := jsFindIdx (fun e => decide (t ≤ e)) es
  let endIndex : Int :=
    match es.findIdx? (fun e => decide (t + d < e)) with
    | none => (es.length : Int) - 1
    | some j => (j : Int) - 1
  ⟨startIndex, max startIndex endIndex⟩

/-- The segment the claim describes for the half open window [t, t + d):
indices from the first sample with elapsed time at least t through the one
before the first sample with elapsed time at least t + d, clamped to the last
index when there is none, corrected when empty. -/
def segForWindowHalfOpen (es : List Int) (d t : Int) : Seg :=
  let startIndex : Int := jsFindIdx (fun e => decide (t ≤ e)) es
  let endIndex : Int :=
    match es.findIdx? (fun e => decide (t + d ≤ e)) with
    | none => (es.length : Int) - 1
    | some j => (j : Int) - 1
  ⟨startIndex, max startIndex endIndex⟩

/-- The heart rate eligible points of handleApplySplit for a points split:
chartData.map((point, index) => ({...point, originalArrayIndex: index}))
.filter(point => point.heart_rate != null).  Each point is modelled by its
originalArrayIndex paired with its heart_rate value. -/
def hrPointsOf (hrs : List (Option Int)) : List (Nat × Option Int) :=
  hrs.enum.filter fun point => point.2.isSome

/-- Chunking a list into consecutive groups of p, from the loop
for (let i = 0; i < hrPoints.length; i += pointsPerSegment)
{ chunk = hrPoints.slice(i, i + pointsPerSegment); ... }.
Faithful to the source for p at least 1 (the caller guards value > 0). -/
def listChunksGo (p : Nat) : Nat → List α → List (List α)
  | 0, _ => []
  | _, [] => []
  | fuel + 1, x :: xs => (x :: xs.take (p - 1)) :: listChunksGo p fuel (xs.drop (p - 1))

def listChunks (p : Nat) (l : List α) : List (List α) := listChunksGo p l.length l

/-- Point count segmentation, the points branch of handleApplySplit: filter to
heart rate eligible points, chunk into groups of p, and map each nonempty
chunk to the segment from its first to its last originalArrayIndex.  The none
result models the early return with the message that no heart rate data was
found. -/
def pointsSegments (hrs : List (Option Int)) (p : Nat) : Option (List Seg) :=
  if (hrPointsOf hrs).isEmpty then none
  else some ((listChunks p (hrPointsOf hrs)).filterMap fun chunk =>
    match chunk.head?, chunk.getLast? with
    | some first, some last => some ⟨(first.1 : Int), (last.1 : Int)⟩
    | _, _ => none)

/-- The 100 sample scenario of claim C3: heart rate null exactly at indices
40 through 59, present elsewhere. -/
def hrs100 : List (Option Int) :=
  (List.range 100).map fun i => if 40 ≤ i ∧ i ≤ 59 then none else some 100

/-- The chart page state touched by the domain handlers: the stored view
window (activeDomain), the active segmentation and its cursor, and the brush
remount key. -/
structure ChartState where
  activeDomain : Option Seg
  splitSegments : List Seg
  currentSegmentIndex : Option Nat
  brushKey : Nat
deriving DecidableEq

/-- The brush change handler: if (newDomain && newDomain.startIndex != null)
setActiveDomain(newDomain).  A newDomain that is null or has a null
startIndex is modelled as none; the stored domain is the given object,
unchanged. -/
def handleBrushChange (st : ChartState) (newDomain : Option Seg) : ChartState :=
  match newDomain with
  | some nd => { st with activeDomain := some nd }
  | none => st

/-- The programmatic domain change handler: unless the change comes from a
split it clears splitSegments and currentSegmentIndex; it then stores the
domain and bumps the brush key. -/
def handleProgrammaticDomainChange (st : ChartState) (newDomain : Option Seg)
    (fromSplit : Bool) : ChartState :=
  let st1 := if fromSplit then st
    else { st with splitSegments := [], currentSegmentIndex := none }
  { st1 with activeDomain := newDomain, brushKey := st1.brushKey + 1 }

/-- Modelled from the claim wording: the clamping setWindow the spec
describes, clamping start into [0, length-1] and end into [start, length-1]. -/
def setWindowSpec (length : Nat) (s e : Int) : Seg :=
  ⟨max 0 (min s ((length : Int) - 1)),
    max (max 0 (min s ((length : Int) - 1))) (min e ((length : Int) - 1))⟩

/-- A normalized sample record as produced by normalizedTimeseriesData,
restricted to the fields the annotation flow reads: the stable originalIndex,
the timestamp (an uninterpreted string), and the anomaly label. -/
structure SampleRec where
  originalIndex : Nat
  timestamp : String
  anomaly : Int
deriving DecidableEq

/-- The toggle of one anomaly value: record.anomaly === 1 ? 0 : 1. -/
def toggleAnomaly (a : Int) : Int := if a = 1 then 0 else 1

/-- handleAnomalyToggle: if (originalIndex == null) return; otherwise map over
interactiveData flipping the anomaly of the record whose originalIndex
matches. -/
def handleAnomalyToggle (originalIndex : Option Nat) (data : List SampleRec) :
    List SampleRec :=
  match originalIndex with
  | none => data
  | some oi => data.map fun record =>
      if record.originalIndex = oi
      then { record with anomaly := toggleAnomaly record.anomaly }
      else record

/-- One entry of the change summary built by initiateSaveChanges:
{ timestamp, from, to } (from and to renamed fromA and toA). -/
structure Change where
  timestamp : String
  fromA : Int
  toA : Int
deriving DecidableEq

/-- The reduce of initiateSaveChanges, walking interactiveData with its index
and comparing each record against originalData at the same index; a missing
original (index past the end) contributes nothing.  This is computeDiff. -/
def computeUpdatesGo (originalData : List SampleRec) :
    Nat → List SampleRec → List Change
  | _, [] => []
  | index, current :: rest =>
    match originalData[index]? with
    | some original =>
      if current.anomaly ≠ original.anomaly
      then ⟨current.timestamp, original.anomaly, current.anomaly⟩
        :: computeUpdatesGo originalData (index + 1) rest
      else computeUpdatesGo originalData (index + 1) rest
    | none => computeUpdatesGo originalData (index + 1) rest

def computeUpdates (interactiveData originalData : List SampleRec) : List Change :=
  computeUpdatesGo originalData 0 interactiveData

/-- The save status banner state. -/
inductive SaveState where
  | idle
  | success (msg : String)
  | error (msg : String)
deriving DecidableEq

/-- The page state touched by the save flow. -/
structure EditorState where
  interactiveData : List SampleRec
  originalData : List SampleRec
  saveStatus : SaveState
  hasUnsavedChanges : Bool
  isModalOpen : Bool
  isSaving : Bool
deriving DecidableEq

/-- One entry of the PATCH payload: { timestamp: u.timestamp, anomaly: u.to }. -/
structure SavePayload where
  timestamp : String
  anomaly : Int
deriving DecidableEq

/-- The outcome reported by the external save collaborator (response.ok, or a
thrown error with its message). -/
inductive SaveResult where
  | ok
  | fail (msg : String)

/-- confirmSaveChanges: builds the payload from the updatesToSave snapshot,
issues the save, and on success sets originalData to a deep copy of the
interactiveData value captured by the closure when the call was made, clears
hasUnsavedChanges and shows the success banner; on failure it only records
the error banner, leaving interactiveData and originalData untouched.
Returns the resulting state and the payload that was sent. -/
def confirmSaveChanges (updatesToSave : List Change) (st : EditorState)
    (result : SaveResult) : EditorState × List SavePayload :=
  let payload := updatesToSave.map fun u => SavePayload.mk u.timestamp u.toA
  match result with
  | .ok =>
    (EditorState.mk st.interactiveData st.interactiveData
      (.success "Changes saved successfully!") false false false, payload)
  | .fail msg =>
    (EditorState.mk st.interactiveData st.originalData
      (.error msg) st.hasUnsavedChanges false false, payload)

/-- A JavaScript value as it can appear in a raw anomaly field. -/
inductive JsVal where
  | num (n : Int)
  | nan
  | str (s : String)
  | null
  | undef
  | bool (b : Bool)
deriving DecidableEq

/-- JavaScript Number coercion, restricted to the values of JsVal; none
models NaN.  Number(null) is 0, Number(undefined) is NaN, booleans map to 0
and 1, and a string is parsed as an integer literal (the model covers
integer literals; an empty or blank string is 0, anything unparseable is
NaN). -/
def jsToNumber : JsVal → Option Int
  | .num n => some n
  | .nan => none
  | .null => some 0
  | .undef => none
  | .bool b => some (if b then 1 else 0)
  | .str s => if s.trim = "" then some 0 else s.trim.toInt?

/-- The anomaly normalization of normalizedTimeseriesData:
Number(row.anomaly) === 1 ? 1 : 0. -/
def normAnomaly (v : JsVal) : Int := if jsToNumber v = some 1 then 1 else 0

/-- A raw sample row, restricted to the fields the normalizer reads for the
anomaly flow; a missing anomaly key is JsVal.undef. -/
structure RawRow where
  timestamp : String
  anomaly : JsVal
deriving DecidableEq

/-- normalizedTimeseriesData: each row gets originalIndex = its position and
anomaly = Number(row.anomaly) === 1 ? 1 : 0. -/
def normalizedTimeseriesData (rows : List RawRow) : List SampleRec :=
  rows.enum.map fun p => SampleRec.mk p.1 p.2.timestamp (normAnomaly p.2.anomaly)

/-- handleConfirmReset: interactiveData.map(record => ({...record, anomaly: 0})). -/
def handleConfirmReset (data : List SampleRec) : List SampleRec :=
  data.map fun record => { record with anomaly := 0 }

/-- An operation on the working copy: a toggle at some originalIndex, or the
bulk reset. -/
inductive EditOp where
  | toggle (oi : Option Nat)
  | resetAll

def applyOp (op : EditOp) (data : List SampleRec) : List SampleRec :=
  match op with
  | .toggle oi => handleAnomalyToggle oi data
  | .resetAll => handleConfirmReset data

def applyOps (ops : List EditOp) (data : List SampleRec) : List SampleRec :=
  ops.foldl (fun d op => applyOp op d) data

/-- JavaScript strings at the character level. -/
abbrev Chars := List Char

/-- A sample row as the exporters see it: an association list from field
names to values, in JavaScript object key order; a value of none models a
null field value, an absent key models a missing field. -/
abbrev Row := List (String × Option Chars)

/-- One step of building the header Set: Set.add keeps the first insertion
position and ignores duplicates. -/
def insertKey (acc : List String) (k : String) : List String :=
  if acc.contains k then acc else acc ++ [k]

/-- Object.keys(row).forEach(key => allHeaders.add(key)). -/
def addKeysFrom (acc : List String) (row : Row) : List String :=
  (row.map Prod.fst).foldl insertKey acc

/-- The header computation of handleExport on the session chart page:
const allHeaders = new Set(["timestamp", "anomaly"]);
interactiveData.forEach(row => Object.keys(row).forEach(key =>
allHeaders.add(key))); Array.from(allHeaders). -/
def exportAllHeaders (data : List Row) : List String :=
  data.foldl addKeysFrom ["timestamp", "anomaly"]

/-- The seed of the header Set in processAndDownload on the volunteer detail
page. -/
def processHeaderSeed : List String :=
  ["session_id", "run_date", "timestamp", "anomaly", "heart_rate", "speed", "distance"]

/-- JavaScript object spread {...base, ...row}: keys of row overwrite values
of existing keys in place and append new keys in order. -/
def jsSpread (base row : Row) : Row :=
  row.foldl (fun acc kv =>
    if acc.any (fun kv2 => kv2.1 == kv.1)
    then acc.map (fun kv2 => if kv2.1 == kv.1 then (kv2.1, kv.2) else kv2)
    else acc ++ [kv]) base

/-- One session as processAndDownload consumes it. -/
structure SessionData where
  sessionId : Chars
  runDate : Chars
  timeseriesData : List Row

/-- The flat rows processAndDownload builds: for each session with a
nonempty sample list, each row becomes {session_id, run_date, ...row}. -/
def processCsvRows (sessions : List SessionData) : List Row :=
  sessions.flatMap fun s => s.timeseriesData.map fun row =>
    jsSpread [("session_id", some s.sessionId), ("run_date", some s.runDate)] row

/-- The header computation of processAndDownload: the Set seeded with seven
fixed names, then every flat row key added in first seen order. -/
def processHeaders (sessions : List SessionData) : List String :=
  (processCsvRows sessions).foldl addKeysFrom processHeaderSeed

/-- All keys of all rows, in order of appearance (with repetitions). -/
def allRowKeys (rows : List Row) : List String :=
  rows.flatMap fun r => r.map Prod.fst

/-- First seen order deduplication, keeping the first occurrence of each
key. -/
def firstSeen : List String → List String
  | [] => []
  | k :: ks => k :: firstSeen (ks.filter fun k2 => k2 ≠ k)
termination_by l => l.length
decreasing_by
  simp only [List.length_cons]
  exact Nat.lt_succ_of_le (List.length_filter_le _ _)

/-- String.replace(/"/g, two quote characters) at the character level. -/
def doubleQuotesChars : Chars → Chars
  | [] => []
  | c :: rest =>
    if c = '"' then '"' :: '"' :: doubleQuotesChars rest
    else c :: doubleQuotesChars rest

/-- Cell escaping from convertToCSV: a value containing the field delimiter
is wrapped in quotes with internal quote characters doubled; anything else is
emitted unchanged. -/
def escapeCell (s : Chars) : Chars :=
  if s.contains ',' then '"' :: (doubleQuotesChars s ++ ['"'])
  else s

/-- The cell lookup of convertToCSV: row[header] ?? two apostrophes then
String(value): an absent key or a null value serializes to the empty string,
any other value to its string form. -/
def cellValue (row : Row) (header : String) : Chars :=
  match List.lookup header row with
  | some (some s) => s
  | _ => []

/-- Array.prototype.join(sep) at the character level. -/
def joinSep (sep : Char) : List Chars → Chars
  | [] => []
  | [s] => s
  | s :: s2 :: rest => s ++ sep :: joinSep sep (s2 :: rest)

/-- convertToCSV: the header row is the headers joined by commas; each body
row maps every header to its escaped cell and joins by commas; rows are
joined by newlines. -/
def convertToCSV (data : List Row) (headers : List String) : Chars :=
  joinSep '\n'
    ((joinSep ',' (headers.map String.toList))
      :: data.map fun row =>
          joinSep ',' (headers.map fun header => escapeCell (cellValue row header)))

/-- Standard line splitting for re-parsing the delimited output. -/
def splitOnChar (sep : Char) (s : Chars) : List Chars :=
  s.foldr
    (fun c acc =>
      if c = sep then [] :: acc
      else
        match acc with
        | [] => [[c]]
        | r :: rs => (c :: r) :: rs)
    [[]]

/-- Standard delimited text field parsing with quoting: outside quotes a
comma ends the field and a quote at the start of a field opens a quoted
section; inside quotes a doubled quote is a literal quote and a single quote
closes the section. -/
def parseLineGo : Nat → Chars → Bool → Chars → List Chars → List Chars
  | _, [], _, cur, acc => acc ++ [cur]
  | 0, _ :: _, _, cur, acc => acc ++ [cur]
  | fuel + 1, c :: rest, true, cur, acc =>
    if c = '"' then
      if rest.head? = some '"'
      then parseLineGo fuel rest.tail true (cur ++ ['"']) acc
      else parseLineGo fuel rest false cur acc
    else parseLineGo fuel rest true (cur ++ [c]) acc
  | fuel + 1, c :: rest, false, cur, acc =>
    if c = ',' then parseLineGo fuel rest false [] (acc ++ [cur])
    else if c = '"' ∧ cur = [] then parseLineGo fuel rest true cur acc
    else parseLineGo fuel rest false (cur ++ [c]) acc

def parseLine (s : Chars) : List Chars := parseLineGo s.length s false [] []

/-- Re-parsing the exported text: split into lines, parse each line into
fields. -/
def parseCSV (s : Chars) : List (List Chars) :=
  (splitOnChar '\n' s).map parseLine

/-- parseLineGo with exactly enough fuel; parseLine s = parseFields s false
[] []. -/
def parseFields (s : Chars) (b : Bool) (cur : Chars) (acc : List Chars) : List Chars :=
  parseLineGo s.length s b cur acc

lemma countSegments_eq_map (L k : Nat) (hL : 1 ≤ L) :
    countSegments L k = (List.range k).map (countSegOf L k) := by
  unfold countSegments
  rw [← List.filterMap_eq_map (countSegOf L k)]
  apply List.filterMap_congr
  intro i hi
  have hik : i < k := List.mem_range.mp hi
  have hguard : ((i * (L / k) : Nat) : Int) < (L : Int) := by
    rcases Nat.eq_zero_or_pos (L / k) with hz | hpos
    · simp [hz]; omega
    · have h1 : (L / k) * k ≤ L := Nat.div_mul_le_self L k
      have h2 : i * (L / k) < L := by
        have h3 : i * (L / k) ≤ (k - 1) * (L / k) :=
          Nat.mul_le_mul_right _ (by omega)
        have h4 : (k - 1) * (L / k) < k * (L / k) := by
          apply Nat.mul_lt_mul_of_lt_of_le (by omega) (Nat.le_refl _) hpos
        have h5 : k * (L / k) ≤ L := by
          calc k * (L / k) = (L / k) * k := Nat.mul_comm _ _
            _ ≤ L := h1
        omega
      exact_mod_cast h2
  simp only [countSegOf, hguard, if_pos, Function.comp]

lemma countSegments_getElem (L k : Nat) (hL : 1 ≤ L) (i : Nat)
    (hi : i < (countSegments L k).length) :
    (countSegments L k)[i] = countSegOf L k i := by
  have hmap := countSegments_eq_map L k hL
  have hlen : (countSegments L k).length = k := by
    rw [hmap]; simp
  have hik : i < k := by omega
  simp only [hmap]
  rw [List.getElem_map]
  congr 1
  simp

lemma countSegments_length (L k : Nat) (hL : 1 ≤ L) :
    (countSegments L k).length = k := by
  rw [countSegments_eq_map L k hL]; simp

lemma countSegOf_disjoint (L k : Nat) (j : Int) {i1 i2 : Nat}
    (h12 : i1 < i2) (h2 : i2 < k)
    (c1e : j ≤ (countSegOf L k i1).endIndex)
    (c2s : (countSegOf L k i2).startIndex ≤ j) : False := by
  have hi1 : i1 ≠ k - 1 := by omega
  have e1 : (countSegOf L k i1).endIndex = (((i1 + 1) * (L / k) : Nat) : Int) - 1 := by
    simp [countSegOf, hi1]
  have s2 : (countSegOf L k i2).startIndex = ((i2 * (L / k) : Nat) : Int) := rfl
  have hmul : (i1 + 1) * (L / k) ≤ i2 * (L / k) :=
    Nat.mul_le_mul_right _ (by omega)
  rw [e1] at c1e
  rw [s2] at c2s
  have hcast : (((i1 + 1) * (L / k) : Nat) : Int) ≤ ((i2 * (L / k) : Nat) : Int) := by
    exact_mod_cast hmul
  omega

lemma countSegOf_start (L k i : Nat) :
    (countSegOf L k i).startIndex = ((i * (L / k) : Nat) : Int) := rfl

lemma countSegOf_end_last (L k : Nat) :
    (countSegOf L k (k - 1)).endIndex = (L : Int) - 1 := by
  simp [countSegOf]

lemma countSegOf_end_mid (L k i : Nat) (h : i ≠ k - 1) :
    (countSegOf L k i).endIndex = (((i + 1) * (L / k) : Nat) : Int) - 1 := by
  simp [countSegOf, h]

lemma countSegOf_mem (L k : Nat) (hL : 1 ≤ L) (hk : 1 ≤ k) (j : Int)
    (hj0 : 0 ≤ j) (hjL : j ≤ (L : Int) - 1) :
    ∃ i : Nat, i < k ∧ (countSegOf L k i).startIndex ≤ j ∧ j ≤ (countSegOf L k i).endIndex := by
  have hjn : ((j.toNat : Int)) = j := Int.toNat_of_nonneg hj0
  rcases Nat.eq_zero_or_pos (L / k) with hs0 | hspos
  · refine ⟨k - 1, by omega, ?_, ?_⟩
    · rw [countSegOf_start, hs0]
      simp
      omega
    · rw [countSegOf_end_last]
      omega
  · by_cases hqk : j.toNat / (L / k) < k - 1
    · refine ⟨j.toNat / (L / k), by omega, ?_, ?_⟩
      · rw [countSegOf_start]
        have h1 : (j.toNat / (L / k)) * (L / k) ≤ j.toNat := Nat.div_mul_le_self _ _
        have h2 : (((j.toNat / (L / k)) * (L / k) : Nat) : Int) ≤ (j.toNat : Int) := by
          exact_mod_cast h1
        omega
      · rw [countSegOf_end_mid L k _ (by omega)]
        have hdm : (L / k) * (j.toNat / (L / k)) + j.toNat % (L / k) = j.toNat :=
          Nat.div_add_mod _ _
        have hmod : j.toNat % (L / k) < L / k := Nat.mod_lt _ hspos
        have hcomm : (j.toNat / (L / k) + 1) * (L / k)
            = (L / k) * (j.toNat / (L / k)) + (L / k) := by ring
        have hlt : j.toNat < (j.toNat / (L / k) + 1) * (L / k) := by omega
        have hlt2 : ((j.toNat : Nat) : Int) < (((j.toNat / (L / k) + 1) * (L / k) : Nat) : Int) := by
          exact_mod_cast hlt
        omega
    · refine ⟨k - 1, by omega, ?_, ?_⟩
      · rw [countSegOf_start]
        have h1 : (k - 1) * (L / k) ≤ (j.toNat / (L / k)) * (L / k) :=
          Nat.mul_le_mul_right _ (by omega)
        have h2 : (j.toNat / (L / k)) * (L / k) ≤ j.toNat := Nat.div_mul_le_self _ _
        have h3 : (((k - 1) * (L / k) : Nat) : Int) ≤ (j.toNat : Int) := by
          exact_mod_cast Nat.le_trans h1 h2
        omega
      · rw [countSegOf_end_last]
        omega

/-- Claim C1: for every non-empty sample sequence of length L and every count
k at least 1, count based segmentation with segment size s = floor(L / k)
produces k segments; each of the first k-1 segments contains exactly s
samples; the final segment ends at index L-1; the segments are contiguous
(each startIndex is the previous endIndex plus one), and every index of
[0, L-1] lies in exactly one segment. -/
theorem count_split_partitions (L k : Nat) (hL : 1 ≤ L) (hk : 1 ≤ k) :
    (countSegments L k).length = k
    ∧ (∀ i, (hi : i < (countSegments L k).length) → i < k - 1 →
        ((countSegments L k).get ⟨i, hi⟩).endIndex
          - ((countSegments L k).get ⟨i, hi⟩).startIndex + 1 = ((L / k : Nat) : Int))
    ∧ (∀ hne : countSegments L k ≠ [],
        ((countSegments L k).getLast hne).endIndex = (L : Int) - 1)
    ∧ (∀ i, (hi : i < (countSegments L k).length) →
        (hi1 : i + 1 < (countSegments L k).length) →
        ((countSegments L k).get ⟨i + 1, hi1⟩).startIndex
          = ((countSegments L k).get ⟨i, hi⟩).endIndex + 1)
    ∧ (∀ j : Int, 0 ≤ j → j ≤ (L : Int) - 1 →
        ∃! i : Fin (countSegments L k).length,
          ((countSegments L k).get i).startIndex ≤ j
            ∧ j ≤ ((countSegments L k).get i).endIndex) := by
  have hlen := countSegments_length L k hL
  refine ⟨hlen, ?_, ?_, ?_, ?_⟩
  · intro i hi hik
    simp only [List.get_eq_getElem, countSegments_getElem L k hL i hi]
    rw [countSegOf_start, countSegOf_end_mid L k i (by omega)]
    push_cast
    ring
  · intro hne
    have hk1 : k - 1 < (countSegments L k).length := by omega
    rw [List.getLast_eq_getElem, countSegments_getElem L k hL _ (by omega)]
    rw [show (countSegments L k).length - 1 = k - 1 by omega]
    exact countSegOf_end_last L k
  · intro i hi hi1
    simp only [List.get_eq_getElem, countSegments_getElem L k hL i hi,
      countSegments_getElem L k hL (i + 1) hi1]
    rw [countSegOf_start, countSegOf_end_mid L k i (by omega)]
    push_cast
    ring
  · intro j hj0 hjL
    obtain ⟨i0, hi0k, hs0, he0⟩ := countSegOf_mem L k hL hk j hj0 hjL
    refine ⟨⟨i0, by omega⟩, ⟨?_, ?_⟩, ?_⟩
    · simpa only [List.get_eq_getElem, countSegments_getElem L k hL i0 (by omega)] using hs0
    · simpa only [List.get_eq_getElem, countSegments_getElem L k hL i0 (by omega)] using he0
    · rintro ⟨i1, hi1⟩ ⟨hs1, he1⟩
      simp only [List.get_eq_getElem, countSegments_getElem L k hL i1 hi1] at hs1 he1
      have hi1k : i1 < k := by omega
      rcases Nat.lt_trichotomy i1 i0 with hlt | heq | hgt
      · exact absurd (countSegOf_disjoint L k j hlt hi0k he1 hs0) (fun h => h.elim)
      · exact Fin.ext heq
      · exact absurd (countSegOf_disjoint L k j hgt hi1k he0 hs1) (fun h => h.elim)

/-- Witness for claim C1 at the concrete input L = 10, k = 3. -/
theorem count_split_partitions_witness :
    (countSegments 10 3 = [⟨0, 2⟩, ⟨3, 5⟩, ⟨6, 9⟩])
    ∧ (1 ≤ 10 ∧ 1 ≤ 3)
    ∧ ((countSegments 10 3).length = 3
      ∧ (∀ i, (hi : i < (countSegments 10 3).length) → i < 3 - 1 →
          ((countSegments 10 3).get ⟨i, hi⟩).endIndex
            - ((countSegments 10 3).get ⟨i, hi⟩).startIndex + 1 = ((10 / 3 : Nat) : Int))
      ∧ (∀ hne : countSegments 10 3 ≠ [],
          ((countSegments 10 3).getLast hne).endIndex = ((10 : Nat) : Int) - 1)
      ∧ (∀ i, (hi : i < (countSegments 10 3).length) →
          (hi1 : i + 1 < (countSegments 10 3).length) →
          ((countSegments 10 3).get ⟨i + 1, hi1⟩).startIndex
            = ((countSegments 10 3).get ⟨i, hi⟩).endIndex + 1)
      ∧ (∀ j : Int, 0 ≤ j → j ≤ ((10 : Nat) : Int) - 1 →
          ∃! i : Fin (countSegments 10 3).length,
            ((countSegments 10 3).get i).startIndex ≤ j
              ∧ j ≤ ((countSegments 10 3).get i).endIndex)) :=
  ⟨by decide, ⟨by decide, by decide⟩, count_split_partitions 10 3 (by decide) (by decide)⟩

lemma iterCount_lt_iff (es : List Int) (d : Int) (hd : 0 < d) (n : Nat) :
    n < iterCount es d ↔ (n : Int) * d < totalDurationOf es := by
  unfold iterCount
  rcases le_or_lt (totalDurationOf es) 0 with hT | hT
  · have hT0 : (totalDurationOf es).toNat = 0 := by omega
    rw [hT0]
    have hdiv : (0 + d.toNat - 1) / d.toNat = 0 := Nat.div_eq_of_lt (by omega)
    rw [hdiv]
    constructor
    · omega
    · intro h
      exfalso
      have hnn : (0 : Int) ≤ (n : Int) * d := mul_nonneg (by positivity) hd.le
      omega
  · have hdn : 1 ≤ d.toNat := by omega
    have hd' : ((d.toNat : Int)) = d := by omega
    have hT' : (((totalDurationOf es).toNat : Int)) = totalDurationOf es := by omega
    have hc : ((n : Int) * d < totalDurationOf es) ↔ (n * d.toNat < (totalDurationOf es).toNat) := by
      rw [← hd', ← hT']
      constructor
      · intro h; exact_mod_cast h
      · intro h; exact_mod_cast h
    rw [hc, Nat.lt_iff_add_one_le, Nat.le_div_iff_mul_le (by omega)]
    have hexp : (n + 1) * d.toNat = n * d.toNat + d.toNat := by ring
    omega

lemma jsFindIdx_ne_neg_one (es : List Int) (hne : es ≠ []) (t : Int)
    (h : t < totalDurationOf es) :
    jsFindIdx (fun e => decide (t ≤ e)) es ≠ -1 := by
  have hlast : es.getLast? = some (es.getLast hne) := List.getLast?_eq_getLast es hne
  have hmem : es.getLast hne ∈ es := List.getLast_mem hne
  have htd : totalDurationOf es = es.getLast hne := by
    unfold totalDurationOf; rw [hlast]; rfl
  have hle : t ≤ es.getLast hne := le_of_lt (htd ▸ h)
  have hsome : (es.findIdx? (fun e => decide (t ≤ e))).isSome := by
    rw [List.findIdx?_isSome]
    exact List.any_eq_true.mpr ⟨es.getLast hne, hmem, by simpa using hle⟩
  unfold jsFindIdx
  rcases hidx : es.findIdx? (fun e => decide (t ≤ e)) with _ | i
  · rw [hidx] at hsome; simp at hsome
  · simp only [hidx]
    omega

lemma ite_lt_max (a b : Int) : (if b < a then a else b) = max a b := by
  rcases le_total a b with h | h
  · rw [if_neg (not_lt.mpr h), max_eq_right h]
  · rcases lt_or_eq_of_le h with h2 | h2
    · rw [if_pos h2, max_eq_left h]
    · subst h2; simp

lemma timeLoopGo_spec (es : List Int) (hne : es ≠ []) (d : Int) (hd : 0 < d) :
    ∀ (fuel n : Nat), iterCount es d ≤ n + fuel →
      timeLoopGo es d (totalDurationOf es) fuel ((n : Int) * d)
        = (List.range (iterCount es d - n)).map
            (fun m => segForWindow es d (((n + m : Nat) : Int) * d)) := by
  intro fuel
  induction fuel with
  | zero =>
    intro n hn
    rw [show iterCount es d - n = 0 by omega]
    rfl
  | succ fuel ih =>
    intro n hn
    by_cases hlt : n < iterCount es d
    · have ht : ((n : Int) * d) < totalDurationOf es := (iterCount_lt_iff es d hd n).mp hlt
      have hstart := jsFindIdx_ne_neg_one es hne _ ht
      rw [show iterCount es d - n = (iterCount es d - (n + 1)) + 1 by omega,
        List.range_succ_eq_map, List.map_cons, List.map_map]
      simp only [timeLoopGo]
      rw [if_pos ht, if_neg hstart]
      congr 1
      · simp only [Nat.add_zero]
        unfold segForWindow jsFindIdx
        rcases h0 : es.findIdx? (fun e => decide ((n : Int) * d + d < e)) with _ | j
        · simp only [h0]
          simp [ite_lt_max]
        · simp only [h0]
          have hj : ¬ ((j : Int) = -1) := by omega
          simp only [hj, if_false, if_neg hj]
          simp [ite_lt_max]
      · have harg : (n : Int) * d + d = ((n + 1 : Nat) : Int) * d := by push_cast; ring
        rw [harg, ih (n + 1) (by omega)]
        apply List.map_congr_left
        intro m hm
        simp only [Function.comp_apply, Nat.succ_eq_add_one]
        congr 2
        push_cast
        ring
    · have ht : ¬ ((n : Int) * d < totalDurationOf es) := by
        intro h
        exact hlt ((iterCount_lt_iff es d hd n).mpr h)
      rw [show iterCount es d - n = 0 by omega]
      simp only [timeLoopGo]
      rw [if_neg ht]
      rfl

/-- Claim C2 (amended): for every non-empty sample sequence and every duration
d > 0, duration based segmentation carves one segment per window [t, t + d]
with inclusive upper boundary, for t = 0, d, 2d, ..., stopping as soon as t is
at least totalDuration; each segment runs from the first sample with elapsed
time at least t through the one before the first sample with elapsed time
strictly greater than t + d; a segment whose computed endIndex is less than
its startIndex is corrected to endIndex = startIndex rather than dropped, and
the end index is clamped to length - 1 when no sample exceeds the upper
boundary of the window.  (The claim as frozen says the carved window is the
half open interval [t, t + d); the code includes a sample with elapsed time
exactly t + d in this segment as well as in the next one, see the
counterexample.) -/
theorem time_split_carves_closed_windows (es : List Int) (d : Int)
    (hne : es ≠ []) (hd : 0 < d) :
    timeSegments es d
      = (List.range (iterCount es d)).map (fun n : Nat => segForWindow es d ((n : Int) * d))
    ∧ (∀ g ∈ timeSegments es d, g.startIndex ≤ g.endIndex)
    ∧ (∀ n : Nat, n < iterCount es d ↔ (n : Int) * d < totalDurationOf es) := by
  have heq : timeSegments es d
      = (List.range (iterCount es d)).map (fun n : Nat => segForWindow es d ((n : Int) * d)) := by
    unfold timeSegments
    have h := timeLoopGo_spec es hne d hd (iterCount es d + 1) 0 (by omega)
    have h0 : ((0 : Nat) : Int) * d = 0 := by simp
    rw [h0, Nat.sub_zero] at h
    simp only [Nat.zero_add] at h
    exact h
  refine ⟨heq, ?_, fun n => iterCount_lt_iff es d hd n⟩
  intro g hg
  rw [heq] at hg
  obtain ⟨m, hm, rfl⟩ := List.mem_map.mp hg
  exact le_max_left _ _

/-- Witness for the amended claim C2 at elapsed times [0, 2, 5] and d = 2. -/
theorem time_split_witness :
    timeSegments [(0 : Int), 2, 5] 2 = [⟨0, 1⟩, ⟨1, 1⟩, ⟨2, 2⟩]
    ∧ (([(0 : Int), 2, 5] : List Int) ≠ [] ∧ (0 : Int) < 2)
    ∧ (timeSegments [(0 : Int), 2, 5] 2
        = (List.range (iterCount [(0 : Int), 2, 5] 2)).map
            (fun n : Nat => segForWindow [(0 : Int), 2, 5] 2 ((n : Int) * 2))
      ∧ (∀ g ∈ timeSegments [(0 : Int), 2, 5] 2, g.startIndex ≤ g.endIndex)
      ∧ (∀ n : Nat, n < iterCount [(0 : Int), 2, 5] 2
          ↔ (n : Int) * 2 < totalDurationOf [(0 : Int), 2, 5])) :=
  ⟨by decide, ⟨by decide, by decide⟩,
    time_split_carves_closed_windows [(0 : Int), 2, 5] 2 (by decide) (by decide)⟩

/-- Counterexample to claim C2 as frozen: with elapsed times [0, 1, 2, 3] and
d = 1 the code produces [{0,1}, {1,2}, {2,3}]: the segment carved for t = 1
ends at index 2, whose elapsed time 2 is not inside the half open interval
[1, 2), and indices 1 and 2 each lie in two consecutive segments.  Carving
the half open windows [t, t + d) as the claim states them yields
[{0,0}, {1,1}, {2,2}]. -/
theorem time_split_half_open_counterexample :
    timeSegments [(0 : Int), 1, 2, 3] 1 = [⟨0, 1⟩, ⟨1, 2⟩, ⟨2, 3⟩]
    ∧ (List.range (iterCount [(0 : Int), 1, 2, 3] 1)).map
        (fun n : Nat => segForWindowHalfOpen [(0 : Int), 1, 2, 3] 1 ((n : Int) * 1))
      = [⟨0, 0⟩, ⟨1, 1⟩, ⟨2, 2⟩]
    ∧ timeSegments [(0 : Int), 1, 2, 3] 1
      ≠ (List.range (iterCount [(0 : Int), 1, 2, 3] 1)).map
          (fun n : Nat => segForWindowHalfOpen [(0 : Int), 1, 2, 3] 1 ((n : Int) * 1)) :=
  ⟨by decide, by decide, by decide⟩

lemma listChunksGo_fuel (p : Nat) :
    ∀ (f1 f2 : Nat) (l : List α), l.length ≤ f1 → l.length ≤ f2 →
      listChunksGo p f1 l = listChunksGo p f2 l := by
  intro f1
  induction f1 with
  | zero =>
    intro f2 l h1 h2
    have : l = [] := List.length_eq_zero.mp (by omega)
    subst this
    cases f2 with
    | zero => rfl
    | succ f2 => rfl
  | succ f1 ih =>
    intro f2 l h1 h2
    cases l with
    | nil =>
      cases f2 with
      | zero => rfl
      | succ f2 => rfl
    | cons x xs =>
      cases f2 with
      | zero => simp at h2
      | succ f2 =>
        simp only [listChunksGo]
        congr 1
        exact ih f2 (xs.drop (p - 1)) (by simp at h1 ⊢; omega) (by simp at h2 ⊢; omega)

lemma listChunks_nil (p : Nat) : listChunks p ([] : List α) = [] := rfl

lemma listChunks_cons (p : Nat) (x : α) (xs : List α) :
    listChunks p (x :: xs) = (x :: xs.take (p - 1)) :: listChunks p (xs.drop (p - 1)) := by
  show listChunksGo p (xs.length + 1) (x :: xs)
    = (x :: xs.take (p - 1)) :: listChunks p (xs.drop (p - 1))
  simp only [listChunksGo]
  congr 1
  exact listChunksGo_fuel p xs.length (xs.drop (p - 1)).length _ (by simp) (by simp)

lemma listChunks_eq_nil_iff (p : Nat) (l : List α) :
    listChunks p l = [] ↔ l = [] := by
  cases l with
  | nil => simp [listChunks_nil]
  | cons x xs => simp [listChunks_cons]

lemma listChunks_flatten_aux (p : Nat) :
    ∀ (n : Nat) (l : List α), l.length = n → (listChunks p l).flatten = l := by
  intro n
  induction n using Nat.strong_induction_on with
  | _ n ih =>
    intro l hn
    cases l with
    | nil => simp [listChunks_nil]
    | cons x xs =>
      rw [listChunks_cons]
      simp only [List.flatten_cons]
      rw [ih ((xs.drop (p - 1)).length) (by subst hn; simp; omega) _ rfl]
      simp [List.take_append_drop]

lemma listChunks_flatten (p : Nat) (l : List α) : (listChunks p l).flatten = l :=
  listChunks_flatten_aux p l.length l rfl

lemma listChunks_mem_nonempty_le (p : Nat) (hp : 1 ≤ p) :
    ∀ (n : Nat) (l : List α), l.length = n →
      ∀ c ∈ listChunks p l, c ≠ [] ∧ c.length ≤ p := by
  intro n
  induction n using Nat.strong_induction_on with
  | _ n ih =>
    intro l hn c hc
    cases l with
    | nil => rw [listChunks_nil] at hc; cases hc
    | cons x xs =>
      rw [listChunks_cons] at hc
      rcases List.mem_cons.mp hc with rfl | htail
      · refine ⟨by simp, ?_⟩
        simp only [List.length_cons, List.length_take]
        omega
      · exact ih ((xs.drop (p - 1)).length) (by subst hn; simp; omega) _ rfl c htail

lemma listChunks_not_last_length (p : Nat) (hp : 1 ≤ p) :
    ∀ (n : Nat) (l : List α), l.length = n →
      ∀ i, i + 1 < (listChunks p l).length →
        ((listChunks p l)[i]?.getD []).length = p := by
  intro n
  induction n using Nat.strong_induction_on with
  | _ n ih =>
    intro l hn i hi
    cases l with
    | nil => rw [listChunks_nil] at hi; simp at hi
    | cons x xs =>
      rw [listChunks_cons] at hi ⊢
      cases i with
      | zero =>
        have htail : listChunks p (xs.drop (p - 1)) ≠ [] := by
          simp only [List.length_cons] at hi
          intro hemp
          rw [hemp] at hi
          simp at hi
        have hxs : xs.drop (p - 1) ≠ [] := by
          intro hemp
          exact htail (by rw [hemp, listChunks_nil])
        have hlen : p - 1 < xs.length := by
          by_contra hge
          exact hxs (List.drop_eq_nil_of_le (by omega))
        simp only [List.getElem?_cons_zero, Option.getD_some, List.length_cons,
          List.length_take]
        omega
      | succ i2 =>
        simp only [List.length_cons] at hi
        rw [List.getElem?_cons_succ]
        exact ih ((xs.drop (p - 1)).length) (by subst hn; simp; omega) _ rfl i2 (by omega)

lemma listChunks_length (p : Nat) (hp : 1 ≤ p) :
    ∀ (n : Nat) (l : List α), l.length = n →
      (listChunks p l).length = (l.length + p - 1) / p := by
  intro n
  induction n using Nat.strong_induction_on with
  | _ n ih =>
    intro l hn
    cases l with
    | nil =>
      simp only [listChunks_nil, List.length_nil]
      exact (Nat.div_eq_of_lt (by omega)).symm
    | cons x xs =>
      rw [listChunks_cons]
      simp only [List.length_cons]
      rw [ih ((xs.drop (p - 1)).length) (by subst hn; simp; omega) _ rfl]
      simp only [List.length_drop]
      rw [show xs.length + 1 + p - 1 = xs.length + p by omega,
        Nat.add_div_right _ (by omega)]
      by_cases hcase : xs.length + 1 ≤ p
      · rw [show xs.length - (p - 1) + p - 1 = p - 1 by omega,
          Nat.div_eq_of_lt (by omega), Nat.div_eq_of_lt (by omega)]
      · rw [show xs.length - (p - 1) + p - 1 = xs.length by omega]

lemma filterMap_length_of_isSome {α β : Type _} {f : α → Option β} :
    ∀ l : List α, (∀ a ∈ l, (f a).isSome) → (l.filterMap f).length = l.length := by
  intro l
  induction l with
  | nil => simp
  | cons x xs ih =>
    intro h
    rw [List.filterMap_cons]
    rcases hfx : f x with _ | b
    · have hx := h x (by simp)
      rw [hfx] at hx
      simp at hx
    · simp only [List.length_cons]
      rw [ih (fun a ha => h a (by simp [ha]))]

/-- Claim C3: point count segmentation filters to the samples with a non null
heart rate channel, chunks that filtered list into groups of p (every chunk
nonempty and of size at most p, every chunk but the last of size exactly p,
and the chunks concatenate back to the filtered list), maps each chunk to a
segment, producing ceil(eligible / p) segments, and reports no eligible
samples (the none result) exactly when no sample qualifies. -/
theorem points_split_chunks (hrs : List (Option Int)) (p : Nat) (hp : 1 ≤ p) :
    (pointsSegments hrs p = none ↔ hrPointsOf hrs = [])
    ∧ (listChunks p (hrPointsOf hrs)).flatten = hrPointsOf hrs
    ∧ (∀ c ∈ listChunks p (hrPointsOf hrs), c ≠ [] ∧ c.length ≤ p)
    ∧ (∀ i, i + 1 < (listChunks p (hrPointsOf hrs)).length →
        (((listChunks p (hrPointsOf hrs))[i]?).getD []).length = p)
    ∧ (∀ segs, pointsSegments hrs p = some segs
        → segs.length = ((hrPointsOf hrs).length + p - 1) / p) := by
  refine ⟨?_, listChunks_flatten p _,
    fun c hc => listChunks_mem_nonempty_le p hp _ _ rfl c hc,
    fun i hi => listChunks_not_last_length p hp _ _ rfl i hi, ?_⟩
  · constructor
    · intro hnone
      by_contra hne
      have hb : (hrPointsOf hrs).isEmpty = false := by
        cases hb2 : (hrPointsOf hrs).isEmpty with
        | true => exact absurd (List.isEmpty_iff.mp hb2) hne
        | false => rfl
      unfold pointsSegments at hnone
      rw [if_neg (by simp [hb])] at hnone
      exact Option.some_ne_none _ hnone
    · intro hemp
      unfold pointsSegments
      rw [if_pos (by simp [hemp])]
  · intro segs hsegs
    unfold pointsSegments at hsegs
    rcases hl : hrPointsOf hrs with _ | ⟨q, qs⟩
    · rw [hl] at hsegs
      simp at hsegs
    · rw [hl] at hsegs
      rw [if_neg (by simp)] at hsegs
      rw [← hl] at hsegs
      rw [← hl]
      have hsegs2 : (listChunks p (hrPointsOf hrs)).filterMap (fun chunk =>
          match chunk.head?, chunk.getLast? with
          | some first, some last => some (Seg.mk (first.1 : Int) (last.1 : Int))
          | _, _ => none) = segs := by
        exact Option.some_injective _ hsegs
      rw [← hsegs2]
      rw [filterMap_length_of_isSome]
      · exact listChunks_length p hp _ _ rfl
      · intro c hc
        have hcne : c ≠ [] := (listChunks_mem_nonempty_le p hp _ _ rfl c hc).1
        rcases hh : c.head? with _ | first
        · rw [List.head?_eq_none_iff] at hh
          exact absurd hh hcne
        · rcases hl : c.getLast? with _ | last
          · rw [List.getLast?_eq_none_iff] at hl
            exact absurd hl hcne
          · simp [hh, hl]

/-- Witness for claim C3 at the scenario input: 100 samples with heart rate
null at indices 40 through 59 and p = 20 give exactly the four segments
{0,19}, {20,39}, {60,79}, {80,99}; there are 80 eligible samples; no chunk
contains an index in [40, 59]; each segment range contains exactly 20
eligible indices. -/
theorem points_split_witness :
    pointsSegments hrs100 20 = some [⟨0, 19⟩, ⟨20, 39⟩, ⟨60, 79⟩, ⟨80, 99⟩]
    ∧ (hrPointsOf hrs100).length = 80
    ∧ ((listChunks 20 (hrPointsOf hrs100)).all fun c =>
        c.all fun q => decide (q.1 < 40) || decide (59 < q.1)) = true
    ∧ (([⟨0, 19⟩, ⟨20, 39⟩, ⟨60, 79⟩, ⟨80, 99⟩] : List Seg).all fun s =>
        (hrPointsOf hrs100).countP
          (fun q => decide (s.startIndex ≤ (q.1 : Int))
            && decide ((q.1 : Int) ≤ s.endIndex)) == 20) = true
    ∧ 1 ≤ 20
    ∧ ((pointsSegments hrs100 20 = none ↔ hrPointsOf hrs100 = [])
      ∧ (listChunks 20 (hrPointsOf hrs100)).flatten = hrPointsOf hrs100
      ∧ (∀ c ∈ listChunks 20 (hrPointsOf hrs100), c ≠ [] ∧ c.length ≤ 20)
      ∧ (∀ i, i + 1 < (listChunks 20 (hrPointsOf hrs100)).length →
          (((listChunks 20 (hrPointsOf hrs100))[i]?).getD []).length = 20)
      ∧ (∀ segs, pointsSegments hrs100 20 = some segs
          → segs.length = ((hrPointsOf hrs100).length + 20 - 1) / 20)) :=
  ⟨by decide, by decide, by decide, by decide, by decide,
    points_split_chunks hrs100 20 (by decide)⟩

/-- Counterexample to claim C4: on a 50 sample sequence the handlers store
setWindow(-5, 10^9) exactly as given, {-5, 1000000000}, not the clamped
window {0, 49} the claim requires. -/
theorem set_window_no_clamp_counterexample :
    (handleBrushChange ⟨none, [], none, 0⟩ (some ⟨-5, 1000000000⟩)).activeDomain
      = some ⟨-5, 1000000000⟩
    ∧ (handleProgrammaticDomainChange ⟨none, [], none, 0⟩
        (some ⟨-5, 1000000000⟩) false).activeDomain = some ⟨-5, 1000000000⟩
    ∧ setWindowSpec 50 (-5) 1000000000 = ⟨0, 49⟩
    ∧ (handleBrushChange ⟨none, [], none, 0⟩ (some ⟨-5, 1000000000⟩)).activeDomain
      ≠ some (setWindowSpec 50 (-5) 1000000000) :=
  ⟨rfl, rfl, by decide, by decide⟩

/-- Claim C4 (amended): the handlers never clamp: a domain whose startIndex
is non null is stored exactly as given (a null domain leaves the state
unchanged); the programmatic variant additionally clears the active
segmentation unless the change came from a split, and bumps the brush key;
the stored window agrees with the clamping setWindow of the spec exactly
when the pair is already within [0, length-1] and ordered. -/
theorem set_window_stores_unclamped (st : ChartState) (d : Seg) (L : Nat)
    (hL : 1 ≤ L) :
    (handleBrushChange st (some d)).activeDomain = some d
    ∧ handleBrushChange st none = st
    ∧ handleProgrammaticDomainChange st (some d) false
        = ChartState.mk (some d) [] none (st.brushKey + 1)
    ∧ handleProgrammaticDomainChange st (some d) true
        = ChartState.mk (some d) st.splitSegments st.currentSegmentIndex (st.brushKey + 1)
    ∧ (setWindowSpec L d.startIndex d.endIndex = d
        ↔ (0 ≤ d.startIndex ∧ d.startIndex ≤ d.endIndex
            ∧ d.endIndex ≤ (L : Int) - 1)) := by
  obtain ⟨s, e⟩ := d
  refine ⟨rfl, rfl, rfl, rfl, ?_⟩
  simp only [setWindowSpec, Seg.mk.injEq]
  constructor
  · intro ⟨h1, h2⟩
    refine ⟨?_, ?_, ?_⟩ <;> omega
  · intro ⟨h1, h2, h3⟩
    constructor <;> omega

/-- Witness for the amended claim C4 at a concrete state and window. -/
theorem set_window_stores_unclamped_witness :
    1 ≤ 50
    ∧ ((handleBrushChange ⟨none, [], none, 0⟩ (some ⟨3, 7⟩)).activeDomain = some ⟨3, 7⟩
      ∧ handleBrushChange ⟨none, [], none, 0⟩ none = ⟨none, [], none, 0⟩
      ∧ handleProgrammaticDomainChange ⟨none, [], none, 0⟩ (some ⟨3, 7⟩) false
          = ChartState.mk (some ⟨3, 7⟩) [] none
              ((ChartState.mk none [] none 0).brushKey + 1)
      ∧ handleProgrammaticDomainChange ⟨none, [], none, 0⟩ (some ⟨3, 7⟩) true
          = ChartState.mk (some ⟨3, 7⟩) (ChartState.mk none [] none 0).splitSegments
              (ChartState.mk none [] none 0).currentSegmentIndex
              ((ChartState.mk none [] none 0).brushKey + 1)
      ∧ (setWindowSpec 50 (Seg.mk 3 7).startIndex (Seg.mk 3 7).endIndex = ⟨3, 7⟩
          ↔ (0 ≤ (Seg.mk 3 7).startIndex
              ∧ (Seg.mk 3 7).startIndex ≤ (Seg.mk 3 7).endIndex
              ∧ (Seg.mk 3 7).endIndex ≤ ((50 : Nat) : Int) - 1))) :=
  ⟨by decide, set_window_stores_unclamped ⟨none, [], none, 0⟩ ⟨3, 7⟩ 50 (by decide)⟩

lemma toggleAnomaly_toggleAnomaly (a : Int) (h : a = 0 ∨ a = 1) :
    toggleAnomaly (toggleAnomaly a) = a := by
  rcases h with rfl | rfl <;> rfl

lemma toggleAnomaly_ne (a : Int) : toggleAnomaly a ≠ a := by
  unfold toggleAnomaly
  by_cases h : a = 1
  · rw [if_pos h]; omega
  · rw [if_neg h]; omega

/-- Claim C5: toggling the same in range index twice returns the working copy
(in particular the anomaly label of that sample) to exactly its value before
either call, and since the diff is recomputed fresh from the current working
copy and baseline, computeDiff afterwards equals computeDiff before either
call, so the cancelled pair of toggles contributes nothing to the diff. -/
theorem toggle_twice_cancels (data base : List SampleRec) (i : Nat)
    (h01 : ∀ r ∈ data, r.anomaly = 0 ∨ r.anomaly = 1) :
    handleAnomalyToggle (some i) (handleAnomalyToggle (some i) data) = data
    ∧ computeUpdates
        (handleAnomalyToggle (some i) (handleAnomalyToggle (some i) data)) base
      = computeUpdates data base := by
  have hsome : ∀ (l : List SampleRec), handleAnomalyToggle (some i) l
      = l.map (fun record => if record.originalIndex = i
          then { record with anomaly := toggleAnomaly record.anomaly }
          else record) := fun l => rfl
  have hid : handleAnomalyToggle (some i) (handleAnomalyToggle (some i) data) = data := by
    rw [hsome, hsome, List.map_map]
    have heq : ∀ r ∈ data,
        ((fun record => if record.originalIndex = i
            then { record with anomaly := toggleAnomaly record.anomaly }
            else record)
          ∘ (fun record => if record.originalIndex = i
            then { record with anomaly := toggleAnomaly record.anomaly }
            else record)) r = id r := by
      intro r hr
      simp only [Function.comp_apply, id]
      by_cases hri : r.originalIndex = i
      · rw [if_pos hri]
        simp only [if_pos hri]
        rw [toggleAnomaly_toggleAnomaly r.anomaly (h01 r hr)]
      · rw [if_neg hri, if_neg hri]
    rw [List.map_congr_left heq, List.map_id]
  exact ⟨hid, by rw [hid]⟩

/-- Witness for claim C5 at a concrete working copy and baseline. -/
theorem toggle_twice_cancels_witness :
    (∀ r ∈ [SampleRec.mk 0 "t0" 0, SampleRec.mk 1 "t1" 1],
        r.anomaly = 0 ∨ r.anomaly = 1)
    ∧ (handleAnomalyToggle (some 1) (handleAnomalyToggle (some 1)
          [SampleRec.mk 0 "t0" 0, SampleRec.mk 1 "t1" 1])
        = [SampleRec.mk 0 "t0" 0, SampleRec.mk 1 "t1" 1]
      ∧ computeUpdates
          (handleAnomalyToggle (some 1) (handleAnomalyToggle (some 1)
            [SampleRec.mk 0 "t0" 0, SampleRec.mk 1 "t1" 1]))
          [SampleRec.mk 0 "t0" 0, SampleRec.mk 1 "t1" 0]
        = computeUpdates [SampleRec.mk 0 "t0" 0, SampleRec.mk 1 "t1" 1]
            [SampleRec.mk 0 "t0" 0, SampleRec.mk 1 "t1" 0]) :=
  ⟨by decide,
    toggle_twice_cancels [SampleRec.mk 0 "t0" 0, SampleRec.mk 1 "t1" 1]
      [SampleRec.mk 0 "t0" 0, SampleRec.mk 1 "t1" 0] 1 (by decide)⟩

/-- Claim C6: when the external save reports failure, commit is not
performed: the working copy and the baseline are exactly as before the save
attempt, computeDiff afterwards returns the same pending changes, and the
failure is surfaced as an error status carrying the message. -/
theorem save_failure_preserves_edits (updates : List Change) (st : EditorState)
    (msg : String) :
    ((confirmSaveChanges updates st (.fail msg)).1).interactiveData
        = st.interactiveData
    ∧ ((confirmSaveChanges updates st (.fail msg)).1).originalData
        = st.originalData
    ∧ computeUpdates ((confirmSaveChanges updates st (.fail msg)).1).interactiveData
        ((confirmSaveChanges updates st (.fail msg)).1).originalData
      = computeUpdates st.interactiveData st.originalData
    ∧ ((confirmSaveChanges updates st (.fail msg)).1).saveStatus = .error msg :=
  ⟨rfl, rfl, rfl, rfl⟩

lemma computeUpdatesGo_toggle_below (i : Nat) (full : List SampleRec) :
    ∀ (l : List SampleRec) (base : Nat),
      (∀ k, (hk : k < l.length) → (l.get ⟨k, hk⟩).originalIndex = base + k) →
      (∀ k, full[base + k]? = l[k]?) →
      i < base →
      computeUpdatesGo full base (handleAnomalyToggle (some i) l) = [] := by
  intro l
  induction l with
  | nil => intro base hwf hagree hib; rfl
  | cons r rest ih =>
    intro base hwf hagree hib
    have hr0 : r.originalIndex = base := by
      have := hwf 0 (by simp)
      simpa using this
    have h0 : full[base]? = some r := by
      have := hagree 0
      simpa using this
    show computeUpdatesGo full base
      ((r :: rest).map (fun record => if record.originalIndex = i
        then { record with anomaly := toggleAnomaly record.anomaly }
        else record)) = []
    rw [List.map_cons]
    rw [if_neg (by omega)]
    simp only [computeUpdatesGo, h0]
    rw [if_neg (by simp)]
    exact ih (base + 1)
      (fun k hk => by
        have := hwf (k + 1) (by simpa using Nat.succ_lt_succ hk)
        simpa [Nat.add_assoc, Nat.add_comm 1 k] using this)
      (fun k => by
        have := hagree (k + 1)
        simpa [Nat.add_assoc, Nat.add_comm 1 k] using this)
      (by omega)

lemma computeUpdatesGo_toggle_at (i : Nat) (full : List SampleRec) :
    ∀ (l : List SampleRec) (base : Nat),
      (∀ k, (hk : k < l.length) → (l.get ⟨k, hk⟩).originalIndex = base + k) →
      (∀ k, full[base + k]? = l[k]?) →
      base ≤ i → i < base + l.length →
      computeUpdatesGo full base (handleAnomalyToggle (some i) l)
        = [Change.mk ((l[i - base]?).getD (SampleRec.mk 0 "" 0)).timestamp
            ((l[i - base]?).getD (SampleRec.mk 0 "" 0)).anomaly
            (toggleAnomaly (((l[i - base]?).getD (SampleRec.mk 0 "" 0)).anomaly))] := by
  intro l
  induction l with
  | nil =>
    intro base hwf hagree hbi hi
    simp at hi
    omega
  | cons r rest ih =>
    intro base hwf hagree hbi hi
    have hr0 : r.originalIndex = base := by
      have := hwf 0 (by simp)
      simpa using this
    have h0 : full[base]? = some r := by
      have := hagree 0
      simpa using this
    show computeUpdatesGo full base
      ((r :: rest).map (fun record => if record.originalIndex = i
        then { record with anomaly := toggleAnomaly record.anomaly }
        else record)) = _
    rw [List.map_cons]
    by_cases hbase : base = i
    · rw [if_pos (by omega)]
      simp only [computeUpdatesGo, h0]
      rw [if_pos (by simpa using toggleAnomaly_ne r.anomaly)]
      have hrest : computeUpdatesGo full (base + 1)
          ((rest.map (fun record => if record.originalIndex = i
            then { record with anomaly := toggleAnomaly record.anomaly }
            else record))) = [] :=
        computeUpdatesGo_toggle_below i full rest (base + 1)
          (fun k hk => by
            have := hwf (k + 1) (by simpa using Nat.succ_lt_succ hk)
            simpa [Nat.add_assoc, Nat.add_comm 1 k] using this)
          (fun k => by
            have := hagree (k + 1)
            simpa [Nat.add_assoc, Nat.add_comm 1 k] using this)
          (by omega)
      rw [hrest]
      have hidx : i - base = 0 := by omega
      simp [hidx]
    · rw [if_neg (by omega)]
      simp only [computeUpdatesGo, h0]
      rw [if_neg (by simp)]
      have hrec := ih (base + 1)
        (fun k hk => by
          have := hwf (k + 1) (by simpa using Nat.succ_lt_succ hk)
          simpa [Nat.add_assoc, Nat.add_comm 1 k] using this)
        (fun k => by
          have := hagree (k + 1)
          simpa [Nat.add_assoc, Nat.add_comm 1 k] using this)
        (by omega) (by simp at hi ⊢; omega)
      have hrec2 : computeUpdatesGo full (base + 1)
          ((rest.map (fun record => if record.originalIndex = i
            then { record with anomaly := toggleAnomaly record.anomaly }
            else record)))
          = [Change.mk ((rest[i - (base + 1)]?).getD (SampleRec.mk 0 "" 0)).timestamp
              ((rest[i - (base + 1)]?).getD (SampleRec.mk 0 "" 0)).anomaly
              (toggleAnomaly (((rest[i - (base + 1)]?).getD (SampleRec.mk 0 "" 0)).anomaly))] := hrec
      rw [hrec2]
      have hidx : i - base = (i - (base + 1)) + 1 := by omega
      rw [hidx, List.getElem?_cons_succ]

/-- Counterexample to claim C7 as frozen: the diff snapshot is taken when the
confirmation dialog opens; a toggle performed after that snapshot but before
the save call is issued is committed into the new baseline on success (the
commit copies the working copy captured when the call is made, not the
snapshot), so that additional edit does not appear in computeDiff afterwards,
contradicting the claim that edits made between the snapshot and the save
completion remain outside the new baseline and still appear in the diff. -/
theorem save_snapshot_counterexample :
    (let st0 := EditorState.mk
        [SampleRec.mk 0 "t0" 1, SampleRec.mk 1 "t1" 0]
        [SampleRec.mk 0 "t0" 0, SampleRec.mk 1 "t1" 0]
        .idle true false false
     let snapshot := computeUpdates st0.interactiveData st0.originalData
     let stA := EditorState.mk (handleAnomalyToggle (some 1) st0.interactiveData)
        st0.originalData .idle true false false
     let final := (confirmSaveChanges snapshot stA .ok).1
     snapshot = [Change.mk "t0" 0 1]
     ∧ (confirmSaveChanges snapshot stA .ok).2 = [SavePayload.mk "t0" 1]
     ∧ computeUpdates final.interactiveData final.originalData = []
     ∧ final.originalData = [SampleRec.mk 0 "t0" 1, SampleRec.mk 1 "t1" 1]) := by
  decide

/-- Claim C7 (amended): the diff is snapshotted before the asynchronous save
call is issued and the payload sent is exactly that snapshot; on success the
baseline becomes a copy of the working copy as captured when the save was
issued, so a toggle landing while the call is in flight stays outside the new
baseline and is exactly what computeDiff returns after the commit.  (Toggles
made between the diff snapshot and the issuing of the call are absorbed into
the committed baseline without being part of the payload, see the
counterexample.) -/
theorem save_commits_issue_time_copy (snapshot : List Change) (st : EditorState)
    (i : Nat)
    (hwf : ∀ k, (hk : k < st.interactiveData.length) →
      (st.interactiveData.get ⟨k, hk⟩).originalIndex = k)
    (hi : i < st.interactiveData.length) :
    (confirmSaveChanges snapshot st .ok).2
      = snapshot.map (fun u => SavePayload.mk u.timestamp u.toA)
    ∧ ((confirmSaveChanges snapshot st .ok).1).originalData = st.interactiveData
    ∧ computeUpdates (handleAnomalyToggle (some i) st.interactiveData)
        (((confirmSaveChanges snapshot st .ok).1).originalData)
      = [Change.mk (st.interactiveData.get ⟨i, hi⟩).timestamp
          (st.interactiveData.get ⟨i, hi⟩).anomaly
          (toggleAnomaly ((st.interactiveData.get ⟨i, hi⟩).anomaly))] := by
  refine ⟨rfl, rfl, ?_⟩
  show computeUpdates (handleAnomalyToggle (some i) st.interactiveData)
    st.interactiveData = _
  unfold computeUpdates
  have h := computeUpdatesGo_toggle_at i st.interactiveData st.interactiveData 0
    (fun k hk => by simpa using hwf k hk)
    (fun k => by simp)
    (by omega) (by omega)
  rw [h]
  have hsome : st.interactiveData[i - 0]?
      = some (st.interactiveData.get ⟨i, hi⟩) := by
    simp [List.getElem?_eq_getElem hi]
  rw [hsome]
  rfl

/-- Witness for the amended claim C7 at a concrete pending state and one in
flight toggle. -/
theorem save_commits_issue_time_copy_witness :
    (∀ k, (hk : k < (EditorState.mk
        [SampleRec.mk 0 "t0" 1, SampleRec.mk 1 "t1" 0]
        [SampleRec.mk 0 "t0" 0, SampleRec.mk 1 "t1" 0]
        .idle true false false).interactiveData.length) →
      ((EditorState.mk
        [SampleRec.mk 0 "t0" 1, SampleRec.mk 1 "t1" 0]
        [SampleRec.mk 0 "t0" 0, SampleRec.mk 1 "t1" 0]
        .idle true false false).interactiveData.get ⟨k, hk⟩).originalIndex = k)
    ∧ 1 < (EditorState.mk
        [SampleRec.mk 0 "t0" 1, SampleRec.mk 1 "t1" 0]
        [SampleRec.mk 0 "t0" 0, SampleRec.mk 1 "t1" 0]
        .idle true false false).interactiveData.length
    ∧ ((confirmSaveChanges [Change.mk "t0" 0 1] (EditorState.mk
          [SampleRec.mk 0 "t0" 1, SampleRec.mk 1 "t1" 0]
          [SampleRec.mk 0 "t0" 0, SampleRec.mk 1 "t1" 0]
          .idle true false false) .ok).2
        = [Change.mk "t0" 0 1].map (fun u => SavePayload.mk u.timestamp u.toA)
      ∧ ((confirmSaveChanges [Change.mk "t0" 0 1] (EditorState.mk
          [SampleRec.mk 0 "t0" 1, SampleRec.mk 1 "t1" 0]
          [SampleRec.mk 0 "t0" 0, SampleRec.mk 1 "t1" 0]
          .idle true false false) .ok).1).originalData
        = (EditorState.mk
          [SampleRec.mk 0 "t0" 1, SampleRec.mk 1 "t1" 0]
          [SampleRec.mk 0 "t0" 0, SampleRec.mk 1 "t1" 0]
          .idle true false false).interactiveData
      ∧ computeUpdates (handleAnomalyToggle (some 1) (EditorState.mk
            [SampleRec.mk 0 "t0" 1, SampleRec.mk 1 "t1" 0]
            [SampleRec.mk 0 "t0" 0, SampleRec.mk 1 "t1" 0]
            .idle true false false).interactiveData)
          (((confirmSaveChanges [Change.mk "t0" 0 1] (EditorState.mk
            [SampleRec.mk 0 "t0" 1, SampleRec.mk 1 "t1" 0]
            [SampleRec.mk 0 "t0" 0, SampleRec.mk 1 "t1" 0]
            .idle true false false) .ok).1).originalData)
        = [Change.mk ((EditorState.mk
            [SampleRec.mk 0 "t0" 1, SampleRec.mk 1 "t1" 0]
            [SampleRec.mk 0 "t0" 0, SampleRec.mk 1 "t1" 0]
            .idle true false false).interactiveData.get ⟨1, by decide⟩).timestamp
            ((EditorState.mk
            [SampleRec.mk 0 "t0" 1, SampleRec.mk 1 "t1" 0]
            [SampleRec.mk 0 "t0" 0, SampleRec.mk 1 "t1" 0]
            .idle true false false).interactiveData.get ⟨1, by decide⟩).anomaly
            (toggleAnomaly (((EditorState.mk
            [SampleRec.mk 0 "t0" 1, SampleRec.mk 1 "t1" 0]
            [SampleRec.mk 0 "t0" 0, SampleRec.mk 1 "t1" 0]
            .idle true false false).interactiveData.get ⟨1, by decide⟩).anomaly))]) :=
  ⟨by decide, by decide,
    save_commits_issue_time_copy [Change.mk "t0" 0 1]
      (EditorState.mk
        [SampleRec.mk 0 "t0" 1, SampleRec.mk 1 "t1" 0]
        [SampleRec.mk 0 "t0" 0, SampleRec.mk 1 "t1" 0]
        .idle true false false) 1 (by decide) (by decide)⟩

lemma normAnomaly_binary (v : JsVal) : normAnomaly v = 0 ∨ normAnomaly v = 1 := by
  unfold normAnomaly
  by_cases h : jsToNumber v = some 1
  · right; rw [if_pos h]
  · left; rw [if_neg h]

lemma toggleAnomaly_binary (a : Int) :
    toggleAnomaly a = 0 ∨ toggleAnomaly a = 1 := by
  unfold toggleAnomaly
  by_cases h : a = 1
  · left; rw [if_pos h]
  · right; rw [if_neg h]

lemma applyOp_preserves_binary (op : EditOp) (data : List SampleRec)
    (h : ∀ r ∈ data, r.anomaly = 0 ∨ r.anomaly = 1) :
    ∀ r ∈ applyOp op data, r.anomaly = 0 ∨ r.anomaly = 1 := by
  intro r hr
  cases op with
  | toggle oi =>
    cases oi with
    | none => exact h r hr
    | some i =>
      simp only [applyOp, handleAnomalyToggle] at hr
      obtain ⟨r0, hr0, hmap⟩ := List.mem_map.mp hr
      by_cases hri : r0.originalIndex = i
      · rw [if_pos hri] at hmap
        rw [← hmap]
        exact toggleAnomaly_binary r0.anomaly
      · rw [if_neg hri] at hmap
        rw [← hmap]
        exact h r0 hr0
  | resetAll =>
    simp only [applyOp, handleConfirmReset] at hr
    obtain ⟨r0, hr0, hmap⟩ := List.mem_map.mp hr
    rw [← hmap]
    left
    rfl

lemma applyOps_preserves_binary (ops : List EditOp) :
    ∀ (data : List SampleRec),
      (∀ r ∈ data, r.anomaly = 0 ∨ r.anomaly = 1) →
      ∀ r ∈ applyOps ops data, r.anomaly = 0 ∨ r.anomaly = 1 := by
  induction ops with
  | nil => intro data h r hr; exact h r hr
  | cons op rest ih =>
    intro data h r hr
    exact ih (applyOp op data) (applyOp_preserves_binary op data h) r hr

/-- Claim C10: normalization coerces anomaly to 1 exactly when the raw value
is numerically 1 and to 0 otherwise; every label in a normalized sequence is
0 or 1, and this stays true under any sequence of working copy operations
(toggle, which flips 0 to 1 and 1 to 0, and reset all, which zeroes every
label). -/
theorem anomaly_always_binary (rows : List RawRow) (ops : List EditOp) :
    (∀ r ∈ applyOps ops (normalizedTimeseriesData rows),
        r.anomaly = 0 ∨ r.anomaly = 1)
    ∧ (∀ v : JsVal, (normAnomaly v = 1 ↔ jsToNumber v = some 1)
        ∧ (jsToNumber v ≠ some 1 → normAnomaly v = 0))
    ∧ toggleAnomaly 0 = 1 ∧ toggleAnomaly 1 = 0
    ∧ (∀ data : List SampleRec, ∀ r ∈ handleConfirmReset data, r.anomaly = 0) := by
  refine ⟨?_, ?_, rfl, rfl, ?_⟩
  · apply applyOps_preserves_binary
    intro r hr
    unfold normalizedTimeseriesData at hr
    obtain ⟨p, hp, hmap⟩ := List.mem_map.mp hr
    rw [← hmap]
    exact normAnomaly_binary p.2.anomaly
  · intro v
    constructor
    · unfold normAnomaly
      by_cases h : jsToNumber v = some 1
      · rw [if_pos h]; exact ⟨fun _ => h, fun _ => rfl⟩
      · rw [if_neg h]
        exact ⟨fun h0 => absurd h0 (by omega), fun h1 => absurd h1 h⟩
    · intro h
      unfold normAnomaly
      rw [if_neg h]
  · intro data r hr
    unfold handleConfirmReset at hr
    obtain ⟨r0, hr0, hmap⟩ := List.mem_map.mp hr
    rw [← hmap]

/-- Witness for claim C10 at concrete raw rows (anomaly values 1, "1", 2,
missing, NaN, true) and a concrete operation sequence. -/
theorem anomaly_always_binary_witness :
    (∀ r ∈ applyOps [.toggle (some 0), .resetAll, .toggle (some 2), .toggle none]
        (normalizedTimeseriesData
          [RawRow.mk "t0" (.num 1), RawRow.mk "t1" (.str "1"),
           RawRow.mk "t2" (.num 2), RawRow.mk "t3" .undef,
           RawRow.mk "t4" .nan, RawRow.mk "t5" (.bool true)]),
        r.anomaly = 0 ∨ r.anomaly = 1)
    ∧ (∀ v : JsVal, (normAnomaly v = 1 ↔ jsToNumber v = some 1)
        ∧ (jsToNumber v ≠ some 1 → normAnomaly v = 0))
    ∧ toggleAnomaly 0 = 1 ∧ toggleAnomaly 1 = 0
    ∧ (∀ data : List SampleRec, ∀ r ∈ handleConfirmReset data, r.anomaly = 0) :=
  anomaly_always_binary
    [RawRow.mk "t0" (.num 1), RawRow.mk "t1" (.str "1"),
     RawRow.mk "t2" (.num 2), RawRow.mk "t3" .undef,
     RawRow.mk "t4" .nan, RawRow.mk "t5" (.bool true)]
    [.toggle (some 0), .resetAll, .toggle (some 2), .toggle none]

/-- Counterexample to claim C8: exporting via processAndDownload a single
session whose one sample carries only the fields timestamp and anomaly
produces the seeded seven column header row.  It contains heart_rate, speed
and distance although no exported sample has those fields (so the header set
is strictly larger than the union of the sample field names), and timestamp
is pinned third, not first. -/
theorem export_headers_counterexample :
    processHeaders [SessionData.mk ['7'] ['d']
        [[("timestamp", some ['T']), ("anomaly", some ['0'])]]]
      = ["session_id", "run_date", "timestamp", "anomaly",
         "heart_rate", "speed", "distance"]
    ∧ allRowKeys (processCsvRows [SessionData.mk ['7'] ['d']
        [[("timestamp", some ['T']), ("anomaly", some ['0'])]]])
      = ["session_id", "run_date", "timestamp", "anomaly"]
    ∧ "heart_rate" ∉ allRowKeys (processCsvRows [SessionData.mk ['7'] ['d']
        [[("timestamp", some ['T']), ("anomaly", some ['0'])]]])
    ∧ (processHeaders [SessionData.mk ['7'] ['d']
        [[("timestamp", some ['T']), ("anomaly", some ['0'])]]]).head?
      ≠ some "timestamp" := by
  refine ⟨by decide, by decide, by decide, by decide⟩

lemma foldl_addKeysFrom (rows : List Row) :
    ∀ acc, rows.foldl addKeysFrom acc = (allRowKeys rows).foldl insertKey acc := by
  induction rows with
  | nil => intro acc; rfl
  | cons r rest ih =>
    intro acc
    show rest.foldl addKeysFrom (addKeysFrom acc r) = _
    rw [ih]
    unfold allRowKeys
    rw [List.flatMap_cons, List.foldl_append]
    rfl

lemma mem_firstSeen_iff (a : String) :
    ∀ (n : Nat) (l : List String), l.length = n → (a ∈ firstSeen l ↔ a ∈ l) := by
  intro n
  induction n using Nat.strong_induction_on with
  | _ n ih =>
    intro l hn
    cases l with
    | nil => simp [firstSeen]
    | cons k ks =>
      rw [show firstSeen (k :: ks) = k :: firstSeen (ks.filter fun k2 => k2 ≠ k)
        from by rw [firstSeen]]
      constructor
      · intro h
        rcases List.mem_cons.mp h with rfl | h2
        · exact List.mem_cons_self _ _
        · have := (ih (ks.filter fun k2 => k2 ≠ k).length
            (by subst hn; simp only [List.length_cons]
                exact Nat.lt_succ_of_le (List.length_filter_le _ _)) _ rfl).mp h2
          exact List.mem_cons_of_mem _ (List.mem_of_mem_filter this)
      · intro h
        rcases List.mem_cons.mp h with rfl | h2
        · exact List.mem_cons_self _ _
        · by_cases hak : a = k
          · subst hak; exact List.mem_cons_self _ _
          · apply List.mem_cons_of_mem
            apply (ih (ks.filter fun k2 => k2 ≠ k).length
              (by subst hn; simp only [List.length_cons]
                  exact Nat.lt_succ_of_le (List.length_filter_le _ _)) _ rfl).mpr
            exact List.mem_filter.mpr ⟨h2, by simpa using hak⟩

lemma firstSeen_cons (k : String) (ks : List String) :
    firstSeen (k :: ks) = k :: firstSeen (ks.filter fun k2 => k2 ≠ k) := by
  rw [firstSeen]

lemma firstSeen_filter_comm (k : String) :
    ∀ (n : Nat) (l : List String), l.length = n →
      firstSeen (l.filter fun x => x ≠ k)
        = (firstSeen l).filter fun x => x ≠ k := by
  intro n
  induction n using Nat.strong_induction_on with
  | _ n ih =>
    intro l hn
    cases l with
    | nil => simp [firstSeen]
    | cons x xs =>
      by_cases hxk : x = k
      · subst hxk
        rw [List.filter_cons_of_neg (by simp), firstSeen_cons,
          List.filter_cons_of_neg (by simp)]
        refine (List.filter_eq_self.mpr ?_).symm
        intro a ha
        have hmem : a ∈ xs.filter fun k2 => k2 ≠ x :=
          (mem_firstSeen_iff a _ _ rfl).mp ha
        simpa using List.of_mem_filter hmem
      · rw [List.filter_cons_of_pos (by simpa using hxk), firstSeen_cons,
          firstSeen_cons, List.filter_cons_of_pos (by simpa using hxk)]
        congr 1
        have hcomm : ((xs.filter fun a => a ≠ k).filter fun a => a ≠ x)
            = ((xs.filter fun a => a ≠ x).filter fun a => a ≠ k) := by
          rw [List.filter_filter, List.filter_filter]
          exact List.filter_congr (fun a _ => by rw [Bool.and_comm])
        rw [hcomm]
        exact ih (xs.filter fun a => a ≠ x).length
          (by subst hn
              simp only [List.length_cons]
              exact Nat.lt_succ_of_le (List.length_filter_le _ _)) _ rfl

lemma foldl_insertKey :
    ∀ (n : Nat) (ks : List String), ks.length = n →
      ∀ acc, ks.foldl insertKey acc
        = acc ++ (firstSeen ks).filter fun a => a ∉ acc := by
  intro n
  induction n using Nat.strong_induction_on with
  | _ n ih =>
    intro ks hn acc
    cases ks with
    | nil => simp [firstSeen]
    | cons k rest =>
      rw [firstSeen_cons]
      by_cases hk : k ∈ acc
      · have hins : insertKey acc k = acc := by
          unfold insertKey
          rw [if_pos (by simpa using hk)]
        show rest.foldl insertKey (insertKey acc k) = _
        rw [hins, ih rest.length (by subst hn; simp) _ rfl acc]
        rw [List.filter_cons_of_neg (by simpa using hk)]
        congr 1
        rw [firstSeen_filter_comm k rest.length rest rfl, List.filter_filter]
        apply List.filter_congr
        intro a ha
        by_cases hac : a ∈ acc
        · simp [hac]
        · have hak : a ≠ k := fun he => hac (he ▸ hk)
          simp [hac, hak]
      · have hins : insertKey acc k = acc ++ [k] := by
          unfold insertKey
          rw [if_neg (by simpa using hk)]
        show rest.foldl insertKey (insertKey acc k) = _
        rw [hins, ih rest.length (by subst hn; simp) _ rfl (acc ++ [k])]
        rw [List.filter_cons_of_pos (by simpa using hk), List.append_assoc]
        congr 1
        simp only [List.singleton_append]
        congr 1
        rw [firstSeen_filter_comm k rest.length rest rfl, List.filter_filter]
        apply List.filter_congr
        intro a ha
        by_cases hac : a ∈ acc
        · simp [hac]
        · by_cases hak : a = k
          · subst hak; simp
          · simp [hac, hak]

lemma firstSeen_nodup :
    ∀ (n : Nat) (l : List String), l.length = n → (firstSeen l).Nodup := by
  intro n
  induction n using Nat.strong_induction_on with
  | _ n ih =>
    intro l hn
    cases l with
    | nil => simp [firstSeen]
    | cons k ks =>
      rw [firstSeen_cons]
      refine List.nodup_cons.mpr ⟨?_, ?_⟩
      · intro hmem
        have := (mem_firstSeen_iff k _ _ rfl).mp hmem
        have := List.of_mem_filter this
        simp at this
      · exact ih (ks.filter fun k2 => k2 ≠ k).length
          (by subst hn
              simp only [List.length_cons]
              exact Nat.lt_succ_of_le (List.length_filter_le _ _)) _ rfl

/-- Claim C8 (amended): every export header row is its fixed seed list
followed by the remaining field names in first seen order with duplicates
removed; the session chart export seeds exactly [timestamp, anomaly], so its
header set is the union of the seed and all field names present across every
exported sample with timestamp and anomaly pinned first; the volunteer page
export seeds [session_id, run_date, timestamp, anomaly, heart_rate, speed,
distance], so seeded channel names appear even when no exported sample
carries them and timestamp and anomaly are pinned third and fourth (see the
counterexample). -/
theorem export_headers_seeded (data : List Row) (sessions : List SessionData) :
    exportAllHeaders data
      = ["timestamp", "anomaly"]
        ++ (firstSeen (allRowKeys data)).filter
            (fun a => a ∉ (["timestamp", "anomaly"] : List String))
    ∧ (∀ key, key ∈ exportAllHeaders data
        ↔ key = "timestamp" ∨ key = "anomaly"
          ∨ ∃ row ∈ data, key ∈ row.map Prod.fst)
    ∧ (exportAllHeaders data).Nodup
    ∧ processHeaders sessions
      = processHeaderSeed
        ++ (firstSeen (allRowKeys (processCsvRows sessions))).filter
            (fun a => a ∉ processHeaderSeed)
    ∧ (∀ key, key ∈ processHeaders sessions
        ↔ key ∈ processHeaderSeed
          ∨ ∃ row ∈ processCsvRows sessions, key ∈ row.map Prod.fst)
    ∧ (processHeaders sessions).Nodup := by
  have hchar : ∀ (seed : List String) (rows : List Row),
      rows.foldl addKeysFrom seed
        = seed ++ (firstSeen (allRowKeys rows)).filter (fun a => a ∉ seed) := by
    intro seed rows
    rw [foldl_addKeysFrom, foldl_insertKey (allRowKeys rows).length _ rfl]
  have hmem : ∀ (seed : List String) (rows : List Row) (key : String),
      (key ∈ rows.foldl addKeysFrom seed
        ↔ key ∈ seed ∨ ∃ row ∈ rows, key ∈ row.map Prod.fst) := by
    intro seed rows key
    rw [hchar, List.mem_append]
    constructor
    · rintro (h | h)
      · exact Or.inl h
      · right
        have h2 := List.of_mem_filter h
        have h3 := (mem_firstSeen_iff key _ _ rfl).mp (List.mem_of_mem_filter h)
        exact List.mem_flatMap.mp h3
    · rintro (h | h)
      · exact Or.inl h
      · by_cases hseed : key ∈ seed
        · exact Or.inl hseed
        · right
          refine List.mem_filter.mpr ⟨?_, by simpa using hseed⟩
          exact (mem_firstSeen_iff key _ _ rfl).mpr (List.mem_flatMap.mpr h)
  have hnodup : ∀ (seed : List String) (rows : List Row), seed.Nodup →
      (rows.foldl addKeysFrom seed).Nodup := by
    intro seed rows hseed
    rw [hchar]
    refine List.Nodup.append hseed
      (List.Nodup.filter _ (firstSeen_nodup (allRowKeys rows).length _ rfl)) ?_
    intro a ha hb
    have := List.of_mem_filter hb
    simp at this
    exact this ha
  refine ⟨hchar _ data, ?_, hnodup _ data (by decide), hchar _ _, ?_, hnodup _ _ (by decide)⟩
  · intro key
    have := hmem ["timestamp", "anomaly"] data key
    simpa [or_assoc] using this
  · intro key
    exact hmem processHeaderSeed (processCsvRows sessions) key

lemma parseLineGo_fuel :
    ∀ (f1 : Nat) (s : Chars) (f2 : Nat) (b : Bool) (cur : Chars) (acc : List Chars),
      s.length ≤ f1 → s.length ≤ f2 →
      parseLineGo f1 s b cur acc = parseLineGo f2 s b cur acc := by
  intro f1
  induction f1 with
  | zero =>
    intro s f2 b cur acc h1 h2
    have hs : s = [] := List.length_eq_zero.mp (by omega)
    subst hs
    cases f2 <;> rfl
  | succ f1 ih =>
    intro s f2 b cur acc h1 h2
    cases s with
    | nil => cases f2 <;> rfl
    | cons c rest =>
      cases f2 with
      | zero => simp at h2
      | succ f2 =>
        simp only [List.length_cons] at h1 h2
        cases b with
        | true =>
          simp only [parseLineGo]
          by_cases hc : c = '"'
          · rw [if_pos hc, if_pos hc]
            by_cases hh : rest.head? = some '"'
            · rw [if_pos hh, if_pos hh]
              exact ih rest.tail f2 true (cur ++ ['"']) acc
                (by rw [List.length_tail]; omega)
                (by rw [List.length_tail]; omega)
            · rw [if_neg hh, if_neg hh]
              exact ih rest f2 false cur acc (by omega) (by omega)
          · rw [if_neg hc, if_neg hc]
            exact ih rest f2 true (cur ++ [c]) acc (by omega) (by omega)
        | false =>
          simp only [parseLineGo]
          by_cases hc : c = ','
          · rw [if_pos hc, if_pos hc]
            exact ih rest f2 false [] (acc ++ [cur]) (by omega) (by omega)
          · rw [if_neg hc, if_neg hc]
            by_cases hq : c = '"' ∧ cur = []
            · rw [if_pos hq, if_pos hq]
              exact ih rest f2 true cur acc (by omega) (by omega)
            · rw [if_neg hq, if_neg hq]
              exact ih rest f2 false (cur ++ [c]) acc (by omega) (by omega)

lemma parseLine_eq_parseFields (s : Chars) : parseLine s = parseFields s false [] [] := rfl

lemma parseFields_nil (b : Bool) (cur : Chars) (acc : List Chars) :
    parseFields [] b cur acc = acc ++ [cur] := rfl

lemma parseFields_cons_true (c : Char) (rest cur : Chars) (acc : List Chars) :
    parseFields (c :: rest) true cur acc =
      if c = '"' then
        if rest.head? = some '"'
        then parseFields rest.tail true (cur ++ ['"']) acc
        else parseFields rest false cur acc
      else parseFields rest true (cur ++ [c]) acc := by
  show parseLineGo (rest.length + 1) (c :: rest) true cur acc = _
  simp only [parseLineGo]
  by_cases hc : c = '"'
  · rw [if_pos hc, if_pos hc]
    by_cases hh : rest.head? = some '"'
    · rw [if_pos hh, if_pos hh]
      exact parseLineGo_fuel rest.length rest.tail rest.tail.length true (cur ++ ['"']) acc
        (by rw [List.length_tail]; omega) (le_refl _)
    · rw [if_neg hh, if_neg hh]; rfl
  · rw [if_neg hc, if_neg hc]; rfl

lemma parseFields_cons_false (c : Char) (rest cur : Chars) (acc : List Chars) :
    parseFields (c :: rest) false cur acc =
      if c = ',' then parseFields rest false [] (acc ++ [cur])
      else if c = '"' ∧ cur = [] then parseFields rest true cur acc
      else parseFields rest false (cur ++ [c]) acc := by
  show parseLineGo (rest.length + 1) (c :: rest) false cur acc = _
  simp only [parseLineGo]
  by_cases hc : c = ','
  · rw [if_pos hc, if_pos hc]; rfl
  · rw [if_neg hc, if_neg hc]
    by_cases hq : c = '"' ∧ cur = []
    · rw [if_pos hq, if_pos hq]; rfl
    · rw [if_neg hq, if_neg hq]; rfl

lemma parseFields_raw (cell : Chars) :
    '"' ∉ cell → ',' ∉ cell →
    ∀ (rest cur : Chars) (acc : List Chars),
      parseFields (cell ++ rest) false cur acc
        = parseFields rest false (cur ++ cell) acc := by
  induction cell with
  | nil => intro _ _ rest cur acc; simp
  | cons c cs ih =>
    intro hq hcm rest cur acc
    have hc1 : c ≠ ',' := fun h => hcm (h ▸ List.mem_cons_self c cs)
    have hc2 : c ≠ '"' := fun h => hq (h ▸ List.mem_cons_self c cs)
    rw [List.cons_append, parseFields_cons_false, if_neg hc1,
      if_neg (fun h => hc2 h.1)]
    rw [ih (fun h => hq (List.mem_cons_of_mem _ h))
      (fun h => hcm (List.mem_cons_of_mem _ h)) rest (cur ++ [c]) acc]
    simp

lemma parseFields_inq (cell : Chars) :
    '"' ∉ cell →
    ∀ (rest cur : Chars) (acc : List Chars),
      parseFields (cell ++ rest) true cur acc
        = parseFields rest true (cur ++ cell) acc := by
  induction cell with
  | nil => intro _ rest cur acc; simp
  | cons c cs ih =>
    intro hq rest cur acc
    have hc : c ≠ '"' := fun h => hq (h ▸ List.mem_cons_self c cs)
    rw [List.cons_append, parseFields_cons_true, if_neg hc]
    rw [ih (fun h => hq (List.mem_cons_of_mem _ h)) rest (cur ++ [c]) acc]
    simp

lemma doubleQuotesChars_id (s : Chars) (hq : '"' ∉ s) : doubleQuotesChars s = s := by
  induction s with
  | nil => rfl
  | cons c cs ih =>
    have hc : c ≠ '"' := fun h => hq (h ▸ List.mem_cons_self c cs)
    unfold doubleQuotesChars
    rw [if_neg hc, ih (fun h => hq (List.mem_cons_of_mem _ h))]

lemma contains_eq_true_iff (s : Chars) (c : Char) :
    s.contains c = true ↔ c ∈ s :=
  ⟨fun h => List.mem_of_elem_eq_true h, fun h => List.elem_eq_true_of_mem h⟩

lemma contains_eq_false_iff (s : Chars) (c : Char) :
    s.contains c = false ↔ c ∉ s := by
  constructor
  · intro h hmem
    have := List.elem_eq_true_of_mem hmem
    rw [List.contains] at h
    rw [h] at this
    cases this
  · intro h
    cases hc : s.contains c with
    | false => rfl
    | true =>
      exact absurd (List.mem_of_elem_eq_true hc) h

lemma parseFields_escaped (cell : Chars) (hq : '"' ∉ cell) (rest : Chars)
    (acc : List Chars) (hrest : rest.head? ≠ some '"') :
    parseFields (escapeCell cell ++ rest) false [] acc
      = parseFields rest false cell acc := by
  unfold escapeCell
  cases hcm : cell.contains ',' with
  | false =>
    rw [if_neg (by simp)]
    have := parseFields_raw cell hq ((contains_eq_false_iff cell ',').mp hcm) rest [] acc
    simpa using this
  | true =>
    rw [if_pos rfl]
    rw [doubleQuotesChars_id cell hq]
    rw [List.cons_append, parseFields_cons_false]
    rw [if_neg (by decide), if_pos ⟨rfl, rfl⟩]
    rw [List.append_assoc, parseFields_inq cell hq]
    rw [List.singleton_append, parseFields_cons_true]
    rw [if_pos rfl, if_neg hrest]
    simp

lemma parseFields_line :
    ∀ (cells : List Chars), cells ≠ [] → (∀ cell ∈ cells, '"' ∉ cell) →
      ∀ acc, parseFields (joinSep ',' (cells.map escapeCell)) false [] acc
        = acc ++ cells := by
  intro cells
  induction cells with
  | nil => intro h; exact absurd rfl h
  | cons cell cs ih =>
    intro _ hq acc
    cases cs with
    | nil =>
      show parseFields (joinSep ',' [escapeCell cell]) false [] acc = acc ++ [cell]
      have h1 := parseFields_escaped cell (hq cell (by simp)) [] acc (by simp)
      rw [show escapeCell cell ++ [] = escapeCell cell from by simp] at h1
      show parseFields (escapeCell cell) false [] acc = acc ++ [cell]
      rw [h1, parseFields_nil]
    | cons cell2 cs2 =>
      rw [List.map_cons, List.map_cons,
        show joinSep ',' (escapeCell cell :: escapeCell cell2 :: cs2.map escapeCell)
          = escapeCell cell
            ++ ',' :: joinSep ',' (escapeCell cell2 :: cs2.map escapeCell)
          from rfl]
      rw [show escapeCell cell
            ++ ',' :: joinSep ',' (escapeCell cell2 :: cs2.map escapeCell)
          = escapeCell cell
            ++ (',' :: joinSep ',' (escapeCell cell2 :: cs2.map escapeCell))
          from rfl]
      rw [parseFields_escaped cell (hq cell (by simp)) _ acc (by simp)]
      rw [parseFields_cons_false, if_pos rfl]
      rw [show (joinSep ',' (escapeCell cell2 :: cs2.map escapeCell))
          = joinSep ',' ((cell2 :: cs2).map escapeCell) from by simp]
      rw [ih (by simp) (fun c hc => hq c (List.mem_cons_of_mem _ hc)) (acc ++ [cell])]
      simp

lemma splitOnChar_nil (sep : Char) : splitOnChar sep [] = [[]] := rfl

lemma splitOnChar_cons (sep c : Char) (rest : Chars) :
    splitOnChar sep (c :: rest) =
      if c = sep then [] :: splitOnChar sep rest
      else
        match splitOnChar sep rest with
        | [] => [[c]]
        | r :: rs => (c :: r) :: rs := rfl

lemma splitOnChar_no_sep (sep : Char) (l : Chars) (h : sep ∉ l) :
    splitOnChar sep l = [l] := by
  induction l with
  | nil => rfl
  | cons c rest ih =>
    have hc : c ≠ sep := fun he => h (he ▸ List.mem_cons_self c rest)
    rw [splitOnChar_cons, if_neg hc, ih (fun hm => h (List.mem_cons_of_mem _ hm))]

lemma splitOnChar_append (sep : Char) (l : Chars) (h : sep ∉ l) (rest : Chars) :
    splitOnChar sep (l ++ sep :: rest) = l :: splitOnChar sep rest := by
  induction l with
  | nil =>
    show splitOnChar sep (sep :: rest) = [] :: splitOnChar sep rest
    rw [splitOnChar_cons, if_pos rfl]
  | cons c cs ih =>
    have hc : c ≠ sep := fun he => h (he ▸ List.mem_cons_self c cs)
    show splitOnChar sep (c :: (cs ++ sep :: rest)) = (c :: cs) :: splitOnChar sep rest
    rw [splitOnChar_cons, if_neg hc, ih (fun hm => h (List.mem_cons_of_mem _ hm))]

lemma splitOnChar_joinSep (sep : Char) :
    ∀ (lines : List Chars), lines ≠ [] → (∀ l ∈ lines, sep ∉ l) →
      splitOnChar sep (joinSep sep lines) = lines := by
  intro lines
  induction lines with
  | nil => intro h; exact absurd rfl h
  | cons l ls ih =>
    intro _ hsep
    cases ls with
    | nil =>
      show splitOnChar sep (joinSep sep [l]) = [l]
      exact splitOnChar_no_sep sep l (hsep l (by simp))
    | cons l2 ls2 =>
      show splitOnChar sep (l ++ sep :: joinSep sep (l2 :: ls2)) = l :: l2 :: ls2
      rw [splitOnChar_append sep l (hsep l (by simp))]
      rw [ih (by simp) (fun x hx => hsep x (List.mem_cons_of_mem _ hx))]

lemma not_mem_joinSep (sep c : Char) (hc : c ≠ sep) :
    ∀ pieces : List Chars, (∀ p ∈ pieces, c ∉ p) → c ∉ joinSep sep pieces := by
  intro pieces
  induction pieces with
  | nil => intro _; simp [joinSep]
  | cons s ss ih =>
    intro h
    cases ss with
    | nil =>
      show c ∉ joinSep sep [s]
      simpa [joinSep] using h s (by simp)
    | cons s2 ss2 =>
      show c ∉ s ++ sep :: joinSep sep (s2 :: ss2)
      intro hmem
      rcases List.mem_append.mp hmem with h1 | h2
      · exact h s (by simp) h1
      · rcases List.mem_cons.mp h2 with rfl | h3
        · exact hc rfl
        · exact ih (fun p hp => h p (List.mem_cons_of_mem _ hp)) h3

lemma not_mem_doubleQuotes (s : Chars) (c : Char) (hc : c ≠ '"') (h : c ∉ s) :
    c ∉ doubleQuotesChars s := by
  induction s with
  | nil => simp [doubleQuotesChars]
  | cons x xs ih =>
    unfold doubleQuotesChars
    by_cases hx : x = '"'
    · rw [if_pos hx]
      intro hmem
      rcases List.mem_cons.mp hmem with rfl | hmem2
      · exact hc rfl
      · rcases List.mem_cons.mp hmem2 with rfl | hmem3
        · exact hc rfl
        · exact ih (fun hm => h (List.mem_cons_of_mem _ hm)) hmem3
    · rw [if_neg hx]
      intro hmem
      rcases List.mem_cons.mp hmem with rfl | hmem2
      · exact h (List.mem_cons_self _ _)
      · exact ih (fun hm => h (List.mem_cons_of_mem _ hm)) hmem2

lemma not_mem_escapeCell (s : Chars) (c : Char) (hc : c ≠ '"') (h : c ∉ s) :
    c ∉ escapeCell s := by
  unfold escapeCell
  by_cases hcm : s.contains ','
  · rw [if_pos hcm]
    intro hmem
    rcases List.mem_cons.mp hmem with rfl | hmem2
    · exact hc rfl
    · rcases List.mem_append.mp hmem2 with h1 | h2
      · exact not_mem_doubleQuotes s c hc h h1
      · simp at h2
        exact hc h2
  · rw [if_neg hcm]
    exact h

/-- Claim C9 (amended): cell serialization maps an absent key or a null value
to the empty string and any other value to its string form; a value
containing the field delimiter is wrapped in quotes with internal quotes
doubled and every other value is emitted unchanged; re-parsing the exported
text recovers, for every sample, exactly the header to value table of the in
memory samples (null mapped to the empty string), provided there is at least
one header, no header contains the field delimiter, a double quote or a
newline (headers are joined into the header row unescaped), and no
stringified value contains a double quote or a newline (values containing
the delimiter round trip thanks to the quoting; unescaped delimiter, quote
or newline characters can break the round trip, see the counterexample). -/
theorem csv_cell_escaping_roundtrip (data : List Row) (headers : List String)
    (hne : headers ≠ [])
    (hh : ∀ h ∈ headers, ',' ∉ h.toList ∧ '"' ∉ h.toList ∧ '\n' ∉ h.toList)
    (hcells : ∀ row ∈ data, ∀ h ∈ headers,
      '"' ∉ cellValue row h ∧ '\n' ∉ cellValue row h) :
    (∀ (row : Row) (h : String), List.lookup h row = none → cellValue row h = [])
    ∧ (∀ (row : Row) (h : String), List.lookup h row = some none → cellValue row h = [])
    ∧ (∀ (row : Row) (h : String) (s : Chars),
        List.lookup h row = some (some s) → cellValue row h = s)
    ∧ (∀ s : Chars, s.contains ',' = false → escapeCell s = s)
    ∧ (∀ s : Chars, s.contains ',' = true →
        escapeCell s = '"' :: (doubleQuotesChars s ++ ['"']))
    ∧ parseCSV (convertToCSV data headers)
      = (headers.map String.toList)
        :: data.map (fun row => headers.map (fun h => cellValue row h)) := by
  refine ⟨?_, ?_, ?_, ?_, ?_, ?_⟩
  · intro row h hl; unfold cellValue; rw [hl]
  · intro row h hl; unfold cellValue; rw [hl]
  · intro row h s hl; unfold cellValue; rw [hl]
  · intro s hs
    unfold escapeCell
    rw [if_neg (fun hcon => by rw [hs] at hcon; cases hcon)]
  · intro s hs
    unfold escapeCell
    rw [if_pos hs]
  · unfold parseCSV convertToCSV
    have hlines : ∀ l ∈ (joinSep ',' (headers.map String.toList))
        :: data.map (fun row =>
          joinSep ',' (headers.map fun header => escapeCell (cellValue row header))),
        '\n' ∉ l := by
      intro l hl
      rcases List.mem_cons.mp hl with rfl | hl2
      · apply not_mem_joinSep ',' '\n' (by decide)
        intro p hp
        obtain ⟨h, hmem, rfl⟩ := List.mem_map.mp hp
        exact (hh h hmem).2.2
      · obtain ⟨row, hrow, rfl⟩ := List.mem_map.mp hl2
        apply not_mem_joinSep ',' '\n' (by decide)
        intro p hp
        obtain ⟨h, hmem, rfl⟩ := List.mem_map.mp hp
        exact not_mem_escapeCell _ _ (by decide) (hcells row hrow h hmem).2
    rw [splitOnChar_joinSep '\n' _ (by simp) hlines]
    rw [List.map_cons]
    congr 1
    · rw [parseLine_eq_parseFields]
      have hesc : (headers.map String.toList).map escapeCell
          = headers.map String.toList := by
        rw [List.map_map]
        apply List.map_congr_left
        intro h hmem
        show escapeCell h.toList = h.toList
        unfold escapeCell
        rw [if_neg (fun hcon => by
          rw [(contains_eq_false_iff _ ',').mpr (hh h hmem).1] at hcon
          cases hcon)]
      have hjoin : joinSep ',' (headers.map String.toList)
          = joinSep ',' ((headers.map String.toList).map escapeCell) := by
        rw [hesc]
      rw [hjoin]
      rw [parseFields_line (headers.map String.toList) (by simpa using hne)
        (fun cell hcell => by
          obtain ⟨h, hmem, rfl⟩ := List.mem_map.mp hcell
          exact (hh h hmem).2.1) []]
      simp
    · rw [List.map_map]
      apply List.map_congr_left
      intro row hrow
      simp only [Function.comp_apply]
      rw [parseLine_eq_parseFields]
      have hmm : headers.map (fun header => escapeCell (cellValue row header))
          = (headers.map (fun header => cellValue row header)).map escapeCell := by
        rw [List.map_map]
        rfl
      rw [hmm]
      rw [parseFields_line (headers.map fun header => cellValue row header)
        (by simpa using hne)
        (fun cell hcell => by
          obtain ⟨h, hmem, rfl⟩ := List.mem_map.mp hcell
          exact (hcells row hrow h hmem).1) []]
      simp

/-- Counterexample to claim C9 as frozen: a stringified value containing a
newline but no comma is emitted unescaped, so the exported text gains an
extra line and re-parsing does not recover the original pairs; a value
beginning with an unescaped quote character is re-parsed as a quoted field
and loses its quote; and a header containing the field delimiter is joined
into the header row unescaped, so it re-parses as two header fields. -/
theorem csv_roundtrip_counterexample :
    parseCSV (convertToCSV [[("a", some ['x', '\n', 'y'])]] ["a"])
      = [[['a']], [['x']], [['y']]]
    ∧ parseCSV (convertToCSV [[("a", some ['x', '\n', 'y'])]] ["a"])
      ≠ (["a"].map String.toList)
        :: [[("a", some ['x', '\n', 'y'])]].map
            (fun row => ["a"].map (fun h => cellValue row h))
    ∧ parseCSV (convertToCSV [[("a", some ['"', 'x'])]] ["a"])
      = [[['a']], [['x']]]
    ∧ parseCSV (convertToCSV [[("a", some ['"', 'x'])]] ["a"])
      ≠ (["a"].map String.toList)
        :: [[("a", some ['"', 'x'])]].map
            (fun row => ["a"].map (fun h => cellValue row h))
    ∧ parseCSV (convertToCSV [[("a,b", some ['x'])]] ["a,b"])
      = [[['a'], ['b']], [['x']]]
    ∧ parseCSV (convertToCSV [[("a,b", some ['x'])]] ["a,b"])
      ≠ (["a,b"].map String.toList)
        :: [[("a,b", some ['x'])]].map
            (fun row => ["a,b"].map (fun h => cellValue row h)) :=
  ⟨by decide, by decide, by decide, by decide, by decide, by decide⟩

/-- Witness for the amended claim C9 on two samples with a comma bearing
value, a null value and a missing field. -/
theorem csv_roundtrip_witness :
    ((["timestamp", "anomaly", "note"] : List String) ≠ []
      ∧ (∀ h ∈ (["timestamp", "anomaly", "note"] : List String),
          ',' ∉ h.toList ∧ '"' ∉ h.toList ∧ '\n' ∉ h.toList)
      ∧ (∀ row ∈ ([[("timestamp", some ['2', '0']), ("anomaly", some ['1']),
            ("note", some ['a', ',', 'b'])],
          [("timestamp", some ['5']), ("note", none)]] : List Row),
          ∀ h ∈ (["timestamp", "anomaly", "note"] : List String),
          '"' ∉ cellValue row h ∧ '\n' ∉ cellValue row h))
    ∧ parseCSV (convertToCSV
        [[("timestamp", some ['2', '0']), ("anomaly", some ['1']),
          ("note", some ['a', ',', 'b'])],
         [("timestamp", some ['5']), ("note", none)]]
        ["timestamp", "anomaly", "note"])
      = [[['t','i','m','e','s','t','a','m','p'], ['a','n','o','m','a','l','y'],
          ['n','o','t','e']],
         [['2', '0'], ['1'], ['a', ',', 'b']],
         [['5'], [], []]]
    ∧ parseCSV (convertToCSV
        [[("timestamp", some ['2', '0']), ("anomaly", some ['1']),
          ("note", some ['a', ',', 'b'])],
         [("timestamp", some ['5']), ("note", none)]]
        ["timestamp", "anomaly", "note"])
      = ((["timestamp", "anomaly", "note"] : List String).map String.toList)
        :: ([[("timestamp", some ['2', '0']), ("anomaly", some ['1']),
            ("note", some ['a', ',', 'b'])],
           [("timestamp", some ['5']), ("note", none)]] : List Row).map
            (fun row => (["timestamp", "anomaly", "note"] : List String).map
              (fun h => cellValue row h)) :=
  ⟨⟨by decide, by decide, by decide⟩, by decide,
    (csv_cell_escaping_roundtrip
      [[("timestamp", some ['2', '0']), ("anomaly", some ['1']),
        ("note", some ['a', ',', 'b'])],
       [("timestamp", some ['5']), ("note", none)]]
      ["timestamp", "anomaly", "note"]
      (by decide) (by decide) (by decide)).2.2.2.2.2⟩
